import Mathlib

/-!
# Verification of the vx snapshot/commit core

Shallow embedding of the vx version-control core (src/vx), covering:
* the tree-node hashing scheme (`core/tree.rs::new_tree`),
* the commit version-stack store (`storage/commit.rs::save/get`),
* commit creation and amendment (`core/commit.rs::Commit::{new,amend}`),
* the blob store (`storage/blob.rs::from_file`),
* branch/repo name validation (`core/branch.rs::validate_branch_name`,
  `core/repo.rs::Repo::new`),
* the two-cursor status walk (`core/tree.rs::traverse_tree/process_files`),
* checkout and re-persist (`core/tree.rs::materialize_tree`,
  `persist_tree_parallel`).

The 128-bit xxh3 digest is abstracted: a streaming `Xxh3` hasher's final
digest is a function of the concatenation of all bytes passed to `update`,
so the development is parameterized by an arbitrary digest function
`h : Bytes → Digest` applied to the exact byte stream the source feeds the
hasher.  Filesystem state is modelled structurally (directories as finite
lists of named entries), and the embedded store operations pass state
explicitly.
-/

namespace Vx

/-- `Digest` is `u128` in the source (`core/digest.rs`). Digests are opaque
identifiers here; no arithmetic is performed on them. -/
abbrev Digest := Nat

/-- `Digest::NONE` (`DigestExt::NONE = 0`). -/
def Digest.NONE : Digest := 0

/-- A byte stream, as fed to the streaming hasher or stored in a file. -/
abbrev Bytes := List Nat

/-- `u128::to_be_bytes`: 16 bytes, big-endian. -/
def beBytes16 (d : Nat) : Bytes :=
  (List.range 16).map (fun i => d / 2 ^ (8 * (15 - i)) % 256)

/-- `str::as_bytes`: the UTF-8 bytes of a string. -/
def strBytes (s : String) : Bytes :=
  s.toUTF8.toList.map (fun b => b.toNat)

/-- `core/blob.rs::Blob`. -/
structure Blob where
  contenthash : Digest
  size : Nat
deriving DecidableEq, Repr

/-- `core/tree.rs::File`. -/
structure File where
  name : String
  blob : Blob
deriving DecidableEq, Repr

/-- `core/tree.rs::Folder`. -/
structure Folder where
  name : String
  hash : Digest
deriving DecidableEq, Repr

/-- `core/tree.rs::Tree`. -/
structure Tree where
  hash : Digest
  folders : List Folder
  files : List File
  size : Nat
  file_count : Nat
  folder_count : Nat
deriving DecidableEq, Repr

/-- One `Xxh3::update` call: the stream digested so far grows by the given
bytes. -/
def hasherUpdate (acc : Bytes) (b : Bytes) : Bytes := acc ++ b

/-- `core/tree.rs::new_tree` (lines 137-172): hash the folder entries
(`update(name)`, `update(hash.to_be_bytes())` per folder, in list order),
then the file entries (`update(name)`, `update(blob.contenthash.to_be_bytes())`),
and build the node.  The store write (`treestore::save`) is modelled where a
claim needs the store. -/
def new_tree (h : Bytes → Digest) (folders : List Folder) (files : List File)
    (size file_count folder_count : Nat) : Tree :=
  let acc := folders.foldl
    (fun a f => hasherUpdate (hasherUpdate a (strBytes f.name)) (beBytes16 f.hash)) []
  let acc := files.foldl
    (fun a f => hasherUpdate (hasherUpdate a (strBytes f.name)) (beBytes16 f.blob.contenthash)) acc
  { hash := h acc
    folders := folders
    files := files
    size := size
    file_count := file_count
    folder_count := folder_count }

/-- Spec-side description of the hashed byte stream: the concatenation of
`(name bytes || hash bytes big-endian)` for each folder in list order,
followed by `(name bytes || blob content-hash bytes big-endian)` for each
file in list order. -/
def treeHashInput (folders : List Folder) (files : List File) : Bytes :=
  (folders.map (fun f => strBytes f.name ++ beBytes16 f.hash)).flatten ++
  (files.map (fun f => strBytes f.name ++ beBytes16 f.blob.contenthash)).flatten

theorem foldl_hasherUpdate_folders (folders : List Folder) (init : Bytes) :
    folders.foldl
      (fun a f => hasherUpdate (hasherUpdate a (strBytes f.name)) (beBytes16 f.hash)) init
    = init ++ (folders.map (fun f => strBytes f.name ++ beBytes16 f.hash)).flatten := by
  induction folders generalizing init with
  | nil => simp
  | cons f fs ih =>
    rw [List.foldl_cons, ih]
    simp [hasherUpdate, List.append_assoc]

theorem foldl_hasherUpdate_files (files : List File) (init : Bytes) :
    files.foldl
      (fun a f => hasherUpdate (hasherUpdate a (strBytes f.name)) (beBytes16 f.blob.contenthash)) init
    = init ++ (files.map (fun f => strBytes f.name ++ beBytes16 f.blob.contenthash)).flatten := by
  induction files generalizing init with
  | nil => simp
  | cons f fs ih =>
    rw [List.foldl_cons, ih]
    simp [hasherUpdate, List.append_assoc]

/-- C7: the hash of a tree node equals the digest of the concatenation of
`(name bytes || hash bytes big-endian)` for each folder in list order
followed by `(name bytes || blob content-hash bytes big-endian)` for each
file in list order; the aggregate `size`, `file_count` and `folder_count`
arguments have no effect on the hash, so two nodes with equal folder and
file lists hash equal even when their aggregates differ. -/
theorem new_tree_hash_spec (h : Bytes → Digest) (folders : List Folder) (files : List File)
    (s₁ c₁ d₁ s₂ c₂ d₂ : Nat) :
    (new_tree h folders files s₁ c₁ d₁).hash = h (treeHashInput folders files) ∧
    (new_tree h folders files s₁ c₁ d₁).hash = (new_tree h folders files s₂ c₂ d₂).hash := by
  constructor
  · simp [new_tree, treeHashInput, foldl_hasherUpdate_folders, foldl_hasherUpdate_files]
  · rfl

/-! ## Name validation (`core/branch.rs::validate_branch_name`, `core/repo.rs::Repo::new`) -/

/-- The per-character test of `validate_branch_name` and of the inline check
in `Repo::new`: `c.is_ascii_lowercase() || c.is_ascii_digit() || c == '.'
|| c == '/' || c == '-'`. -/
def is_name_char (c : Char) : Bool :=
  (97 ≤ c.toNat && c.toNat ≤ 122) || (48 ≤ c.toNat && c.toNat ≤ 57) ||
    c = '.' || c = '/' || c = '-'

/-- `core/branch.rs::validate_branch_name` (lines 131-142): `true` iff every
character passes `is_name_char` (`name.chars().all(...)`); the source returns
`InvalidName` exactly when this is `false`. -/
def validate_branch_name (name : String) : Bool :=
  name.toList.all is_name_char

/-- The inline repo-name check of `core/repo.rs::Repo::new` (lines 24-32),
character-for-character the same predicate as `validate_branch_name`. -/
def repo_name_check (name : String) : Bool :=
  name.toList.all is_name_char

/-- Spec-side grammar `"one or more of: lowercase ASCII letter, digit, dot, slash, hyphen"`: one or more characters, each in the
class. -/
def matchesNamePlus (name : String) : Bool :=
  !name.isEmpty && name.toList.all is_name_char

/-- Spec-side grammar `"zero or more of: lowercase ASCII letter, digit, dot, slash, hyphen"`, written as primitive recursion over
the character list. -/
def matchesNameStar : List Char → Bool
  | [] => true
  | c :: cs => is_name_char c && matchesNameStar cs

theorem all_eq_matchesNameStar (l : List Char) :
    l.all is_name_char = matchesNameStar l := by
  induction l with
  | nil => rfl
  | cons c cs ih => simp [matchesNameStar, ih]

/-- C9 counterexample: the empty string does not match `"one or more of: lowercase ASCII letter, digit, dot, slash, hyphen"`, yet
both the branch-name validator and the repo-name check accept it (the source
uses `chars().all(...)`, which is vacuously true on the empty string), so
neither returns `InvalidName` for it. -/
theorem empty_name_accepted :
    validate_branch_name "" = true ∧ repo_name_check "" = true ∧
      matchesNamePlus "" = false := by
  decide

/-- C9 (amended): branch creation and repository creation return
`InvalidName` exactly for the strings that do not match `"zero or more of: lowercase ASCII letter, digit, dot, slash, hyphen"`,
i.e. exactly for strings containing a character outside the class; the
empty string is accepted. -/
theorem name_validation_star (name : String) :
    (validate_branch_name name = false ↔ matchesNameStar name.toList = false) ∧
    (repo_name_check name = false ↔ matchesNameStar name.toList = false) ∧
    validate_branch_name "" = true := by
  refine ⟨?_, ?_, by decide⟩ <;>
    simp [validate_branch_name, repo_name_check, all_eq_matchesNameStar]

/-! ## Commit records and the version stack (`storage/commit.rs`) -/

/-- `core/commit.rs::CommitID`. -/
structure CommitID where
  branch : Nat
  seq : Nat
deriving DecidableEq, Repr

/-- `core/commit.rs::Commit`. -/
structure Commit where
  id : CommitID
  ver : Nat
  hash : Digest
  treehash : Digest
  message : String
deriving DecidableEq, Repr

/-- `core/commit.rs::create_commit` (lines 362-379): hash `message` bytes
then `treehash` big-endian bytes. -/
def create_commit (h : Bytes → Digest) (id : CommitID) (ver : Nat) (treehash : Digest)
    (message : String) : Commit :=
  { id := id
    ver := ver
    hash := h (hasherUpdate (hasherUpdate [] (strBytes message)) (beBytes16 treehash))
    treehash := treehash
    message := message }

/-- `storage/commit.rs::save` (lines 46-123), restricted to the stack at one
key.  The source keeps the stack sorted by `ver` descending; a new commit
whose `ver` exceeds the top is pushed to the front, a commit with the exact
`ver` of an existing entry overwrites it in place, and otherwise the commit
is inserted at its sorted position (found by `binary_search_by`, which on a
strictly descending stack returns exactly the position this linear scan
finds).  An absent key starts a fresh one-element stack (`[]` case). -/
def stackInsert (c : Commit) : List Commit → List Commit
  | [] => [c]
  | x :: xs =>
    if x.ver < c.ver then c :: x :: xs
    else if c.ver = x.ver then c :: xs
    else x :: stackInsert c xs

/-- `storage/commit.rs::get` (lines 126-143), restricted to the stack at one
key: the first commit (scanning the descending stack front to back) whose
`ver` is at most the requested version; `none` models `CommitError::NotFound`. -/
def stackGet (stack : List Commit) (ver : Nat) : Option Commit :=
  match stack with
  | [] => none
  | c :: rest => if c.ver ≤ ver then some c else stackGet rest ver

/-- The stack at one key reached from the absent key by a sequence of `save`
operations, oldest first. -/
def runSaves (cs : List Commit) : List Commit :=
  cs.foldl (fun s c => stackInsert c s) []

/-- The stack invariant: versions strictly descending front to back. -/
def StackSorted (s : List Commit) : Prop :=
  s.Pairwise (fun a b => b.ver < a.ver)

theorem mem_stackInsert {b c : Commit} {s : List Commit} :
    b ∈ stackInsert c s → b = c ∨ b ∈ s := by
  induction s with
  | nil => simp [stackInsert]
  | cons x xs ih =>
    simp only [stackInsert]
    split
    · intro hb
      rcases List.mem_cons.mp hb with h | h
      · exact Or.inl h
      · exact Or.inr h
    · split
      · intro hb
        rcases List.mem_cons.mp hb with h | h
        · exact Or.inl h
        · exact Or.inr (List.mem_cons_of_mem _ h)
      · intro hb
        rcases List.mem_cons.mp hb with h | h
        · exact Or.inr (h ▸ List.mem_cons_self _ _)
        · rcases ih h with h' | h'
          · exact Or.inl h'
          · exact Or.inr (List.mem_cons_of_mem _ h')

theorem stackInsert_sorted {c : Commit} {s : List Commit} (hs : StackSorted s) :
    StackSorted (stackInsert c s) := by
  induction s with
  | nil => simp [stackInsert, StackSorted]
  | cons x xs ih =>
    rcases List.pairwise_cons.mp hs with ⟨hx, hxs⟩
    simp only [stackInsert]
    split
    · rename_i hlt
      refine List.pairwise_cons.mpr ⟨?_, hs⟩
      intro b hb
      rcases List.mem_cons.mp hb with h | h
      · exact h ▸ hlt
      · exact lt_trans (hx b h) hlt
    · split
      · rename_i hne heq
        refine List.pairwise_cons.mpr ⟨?_, hxs⟩
        intro b hb
        exact heq ▸ hx b hb
      · rename_i hne heq
        have hcx : c.ver < x.ver := by omega
        refine List.pairwise_cons.mpr ⟨?_, ih hxs⟩
        intro b hb
        rcases mem_stackInsert hb with h | h
        · exact h ▸ hcx
        · exact hx b h

theorem runSaves_sorted (cs : List Commit) : StackSorted (runSaves cs) := by
  suffices h : ∀ s, StackSorted s → StackSorted (cs.foldl (fun s c => stackInsert c s) s) by
    exact h [] (by simp [StackSorted])
  induction cs with
  | nil => intro s hs; exact hs
  | cons c cs ih =>
    intro s hs
    exact ih _ (stackInsert_sorted hs)

theorem stackGet_none_iff (s : List Commit) (v : Nat) :
    stackGet s v = none ↔ ∀ c ∈ s, v < c.ver := by
  induction s with
  | nil => simp [stackGet]
  | cons x xs ih =>
    simp only [stackGet]
    by_cases hx : x.ver ≤ v
    · rw [if_pos hx]
      constructor
      · intro hco
        exact absurd hco (by simp)
      · intro hall
        exact absurd (hall x (List.mem_cons_self x xs)) (by omega)
    · rw [if_neg hx, ih]
      constructor
      · intro hall c hc
        rcases List.mem_cons.mp hc with rfl | hc'
        · omega
        · exact hall c hc'
      · intro hall c hc
        exact hall c (List.mem_cons_of_mem _ hc)

theorem stackGet_max {s : List Commit} (hs : StackSorted s) (v : Nat) (c : Commit)
    (hget : stackGet s v = some c) :
    c ∈ s ∧ c.ver ≤ v ∧ ∀ c' ∈ s, c'.ver ≤ v → c'.ver ≤ c.ver := by
  induction s with
  | nil => simp [stackGet] at hget
  | cons x xs ih =>
    rcases List.pairwise_cons.mp hs with ⟨hx, hxs⟩
    by_cases hxv : x.ver ≤ v
    · have : stackGet (x :: xs) v = some x := by
        simp [stackGet, hxv]
      rw [this] at hget
      obtain rfl : x = c := by injection hget
      refine ⟨List.mem_cons_self _ _, hxv, ?_⟩
      intro c' hc' _
      rcases List.mem_cons.mp hc' with h | h
      · exact h ▸ le_refl _
      · exact le_of_lt (hx c' h)
    · have : stackGet (x :: xs) v = stackGet xs v := by
        simp [stackGet, hxv]
      rw [this] at hget
      obtain ⟨hmem, hle, hmax⟩ := ih hxs hget
      refine ⟨List.mem_cons_of_mem _ hmem, hle, ?_⟩
      intro c' hc' hc'v
      rcases List.mem_cons.mp hc' with h | h
      · exact absurd (h ▸ hc'v) hxv
      · exact hmax c' h hc'v

theorem stackInsert_replaces {c : Commit} {s : List Commit} (hs : StackSorted s)
    (hin : c.ver ∈ s.map Commit.ver) :
    (stackInsert c s).map Commit.ver = s.map Commit.ver ∧ c ∈ stackInsert c s := by
  induction s with
  | nil => simp at hin
  | cons x xs ih =>
    rcases List.pairwise_cons.mp hs with ⟨hx, hxs⟩
    simp only [stackInsert]
    by_cases hlt : x.ver < c.ver
    · exfalso
      rcases List.mem_map.mp hin with ⟨b, hb, hbv⟩
      rcases List.mem_cons.mp hb with h | h
      · rw [h] at hbv; omega
      · have := hx b h
        omega
    · by_cases heq : c.ver = x.ver
      · simp [if_neg hlt, if_pos heq, heq]
      · have hin' : c.ver ∈ xs.map Commit.ver := by
          rcases List.mem_map.mp hin with ⟨b, hb, hbv⟩
          rcases List.mem_cons.mp hb with h | h
          · exact absurd (by rw [← hbv, h]) heq
          · exact List.mem_map.mpr ⟨b, h, hbv⟩
        obtain ⟨hmap, hmem⟩ := ih hxs hin'
        rw [if_neg hlt, if_neg heq]
        constructor
        · simp [hmap]
        · exact List.mem_cons_of_mem _ hmem

/-- C3: starting from an absent key, any sequence of `save` operations keeps
the version stack strictly descending; `get` at version `v` fails exactly
when no stored version is at most `v`, and otherwise returns a stored commit
whose version is the greatest stored version not exceeding `v`; a `save`
whose version equals an existing entry's version replaces that entry in
place (the multiset of stored versions is unchanged and the new commit is
present) rather than duplicating it. -/
theorem commit_stack_spec (cs : List Commit) (v : Nat) :
    StackSorted (runSaves cs) ∧
    (stackGet (runSaves cs) v = none ↔ ∀ c ∈ runSaves cs, v < c.ver) ∧
    (∀ c, stackGet (runSaves cs) v = some c →
      c ∈ runSaves cs ∧ c.ver ≤ v ∧
        ∀ c' ∈ runSaves cs, c'.ver ≤ v → c'.ver ≤ c.ver) ∧
    (∀ c, c.ver ∈ (runSaves cs).map Commit.ver →
      (stackInsert c (runSaves cs)).map Commit.ver = (runSaves cs).map Commit.ver ∧
        c ∈ stackInsert c (runSaves cs)) := by
  refine ⟨runSaves_sorted cs, stackGet_none_iff _ v, ?_, ?_⟩
  · intro c hget
    exact stackGet_max (runSaves_sorted cs) v c hget
  · intro c hin
    exact stackInsert_replaces (runSaves_sorted cs) hin

/-- Concrete commits used by witnesses. -/
def wCommitA : Commit := { id := ⟨1, 1⟩, ver := 5, hash := 0, treehash := 10, message := "a" }

def wCommitB : Commit := { id := ⟨1, 1⟩, ver := 3, hash := 0, treehash := 11, message := "b" }

def wCommitB2 : Commit := { id := ⟨1, 1⟩, ver := 3, hash := 0, treehash := 12, message := "b2" }

/-- Witness for `commit_stack_spec`: applied to the concrete save sequence
`[wCommitA, wCommitB]` and request version `4`, where `get` returns the
`ver = 3` entry, and a re-save at `ver = 3` replaces it. -/
theorem commit_stack_spec_witness :
    (wCommitB ∈ runSaves [wCommitA, wCommitB] ∧ wCommitB.ver ≤ 4 ∧
      ∀ c' ∈ runSaves [wCommitA, wCommitB], c'.ver ≤ 4 → c'.ver ≤ wCommitB.ver) ∧
    (stackInsert wCommitB2 (runSaves [wCommitA, wCommitB])).map Commit.ver =
        (runSaves [wCommitA, wCommitB]).map Commit.ver ∧
      wCommitB2 ∈ stackInsert wCommitB2 (runSaves [wCommitA, wCommitB]) := by
  refine ⟨(commit_stack_spec [wCommitA, wCommitB] 4).2.2.1 wCommitB (by decide),
    (commit_stack_spec [wCommitA, wCommitB] 4).2.2.2 wCommitB2 (by decide)⟩


/-! ## Blob store (`storage/blob.rs`) -/

/-- The blob store's persistent state: the `blob.db` KV map
(`digest -> Blob` metadata) and the on-disk content-addressed files.  The
two-level path `blobs/hh/rest` is determined injectively by the digest's hex
form, so disk files are keyed here directly by digest. -/
structure BlobStoreState where
  kv : List (Digest × Blob)
  disk : List (Digest × Bytes)
deriving DecidableEq, Repr

/-- `sled::Db::contains_key` on the blob KV map. -/
def blobContains (st : BlobStoreState) (d : Digest) : Bool :=
  (st.kv.find? (fun p => p.1 == d)).isSome

/-- `storage/blob.rs::from_file` (lines 56-96): hash the source file
(`Digest::compute_hash` returns the digest and the byte length); if the KV
map already has the key, return the blob metadata without touching disk or
KV; otherwise copy the bytes to the content-addressed path (creating the
parent directory on demand — pure effect on the disk map) and insert exactly
one KV record. -/
def blob_from_file (h : Bytes → Digest) (st : BlobStoreState) (contents : Bytes) :
    Blob × BlobStoreState :=
  let contenthash := h contents
  let size := contents.length
  if blobContains st contenthash then
    ({ contenthash := contenthash, size := size }, st)
  else
    ({ contenthash := contenthash, size := size },
      { kv := (contenthash, { contenthash := contenthash, size := size }) :: st.kv
        disk := (contenthash, contents) :: st.disk })

/-- A sequence of `put_file` calls, first file first. -/
def runPuts (h : Bytes → Digest) (st : BlobStoreState) (files : List Bytes) : BlobStoreState :=
  files.foldl (fun s f => (blob_from_file h s f).2) st

/-- The freshly opened (empty) blob store. -/
def emptyBlobStore : BlobStoreState := { kv := [], disk := [] }

theorem blobContains_iff (st : BlobStoreState) (d : Digest) :
    blobContains st d = true ↔ d ∈ st.kv.map Prod.fst := by
  simp only [blobContains, List.find?_isSome, List.mem_map]
  constructor
  · rintro ⟨p, hp, hpd⟩
    exact ⟨p, hp, by simpa using hpd⟩
  · rintro ⟨p, hp, hpd⟩
    exact ⟨p, hp, by simpa using hpd⟩

theorem runPuts_kv_keys (h : Bytes → Digest) (files : List Bytes) (st : BlobStoreState) (d : Digest) :
    d ∈ (runPuts h st files).kv.map Prod.fst ↔
      d ∈ st.kv.map Prod.fst ∨ ∃ f ∈ files, h f = d := by
  induction files generalizing st with
  | nil => simp [runPuts]
  | cons f fs ih =>
    have hstep : runPuts h st (f :: fs) = runPuts h (blob_from_file h st f).2 fs := by
      simp [runPuts]
    rw [hstep, ih]
    by_cases hc : blobContains st (h f)
    · have hmem := (blobContains_iff st (h f)).mp hc
      simp only [blob_from_file, if_pos hc]
      constructor
      · rintro (hd | ⟨g, hg, hgd⟩)
        · exact Or.inl hd
        · exact Or.inr ⟨g, List.mem_cons_of_mem _ hg, hgd⟩
      · rintro (hd | ⟨g, hg, hgd⟩)
        · exact Or.inl hd
        · rcases List.mem_cons.mp hg with rfl | hg'
          · exact Or.inl (hgd ▸ hmem)
          · exact Or.inr ⟨g, hg', hgd⟩
    · simp only [blob_from_file, if_neg hc, List.map_cons, List.mem_cons]
      constructor
      · rintro ((hd | hd) | ⟨g, hg, hgd⟩)
        · exact Or.inr ⟨f, Or.inl rfl, hd.symm⟩
        · exact Or.inl hd
        · exact Or.inr ⟨g, Or.inr hg, hgd⟩
      · rintro (hd | ⟨g, (rfl | hg'), hgd⟩)
        · exact Or.inl (Or.inr hd)
        · exact Or.inl (Or.inl hgd.symm)
        · exact Or.inr ⟨g, hg', hgd⟩

/-- Invariant of the blob store: KV keys and disk keys coincide and carry no
duplicates ("present in KV" implies "bytes present on disk", one record per
distinct content). -/
def BlobStoreInv (st : BlobStoreState) : Prop :=
  st.kv.map Prod.fst = st.disk.map Prod.fst ∧ (st.kv.map Prod.fst).Nodup

theorem blob_from_file_inv (h : Bytes → Digest) (st : BlobStoreState) (contents : Bytes)
    (hinv : BlobStoreInv st) : BlobStoreInv (blob_from_file h st contents).2 := by
  obtain ⟨hkeys, hnodup⟩ := hinv
  by_cases hc : blobContains st (h contents)
  · simpa [blob_from_file, if_pos hc, BlobStoreInv] using ⟨hkeys, hnodup⟩
  · have hnew : h contents ∉ st.kv.map Prod.fst := fun hmem =>
      hc ((blobContains_iff st (h contents)).mpr hmem)
    constructor
    · simp [blob_from_file, if_neg hc, hkeys]
    · simp only [blob_from_file, if_neg hc, List.map_cons]
      exact List.nodup_cons.mpr ⟨hnew, hnodup⟩

theorem runPuts_inv (h : Bytes → Digest) (files : List Bytes) (st : BlobStoreState)
    (hinv : BlobStoreInv st) : BlobStoreInv (runPuts h st files) := by
  induction files generalizing st with
  | nil => exact hinv
  | cons f fs ih =>
    have hstep : runPuts h st (f :: fs) = runPuts h (blob_from_file h st f).2 fs := by
      simp [runPuts]
    rw [hstep]
    exact ih _ (blob_from_file_inv h st f hinv)

/-- C8: `put_file` deduplicates by content hash.  If a KV record for the
source file's digest already exists, the blob metadata is returned and
neither disk nor KV is touched; otherwise exactly one disk file and one KV
record, both keyed by the digest, are added.  Consequently, starting from an
empty store, any sequence of `put_file` calls leaves KV keys equal to disk
keys, with no duplicates, and a key is present exactly when some stored file
has that content hash — one blob file and one KV record per distinct
content. -/
theorem blob_from_file_dedup (h : Bytes → Digest) (st : BlobStoreState) (contents : Bytes) :
    (blobContains st (h contents) = true →
      blob_from_file h st contents =
        ({ contenthash := h contents, size := contents.length }, st)) ∧
    (blobContains st (h contents) = false →
      (blob_from_file h st contents).2.kv =
          (h contents, { contenthash := h contents, size := contents.length }) :: st.kv ∧
        (blob_from_file h st contents).2.disk = (h contents, contents) :: st.disk) ∧
    (∀ files : List Bytes,
      ((runPuts h emptyBlobStore files).kv.map Prod.fst).Nodup ∧
      (runPuts h emptyBlobStore files).kv.map Prod.fst =
        (runPuts h emptyBlobStore files).disk.map Prod.fst ∧
      ∀ d, d ∈ (runPuts h emptyBlobStore files).kv.map Prod.fst ↔ ∃ f ∈ files, h f = d) := by
  refine ⟨?_, ?_, ?_⟩
  · intro hc
    simp [blob_from_file, if_pos hc]
  · intro hc
    constructor <;> simp [blob_from_file, hc]
  · intro files
    have hinv := runPuts_inv h files emptyBlobStore (by constructor <;> simp [emptyBlobStore])
    refine ⟨hinv.2, hinv.1, ?_⟩
    intro d
    rw [runPuts_kv_keys]
    simp [emptyBlobStore]

/-- Witness for `blob_from_file_dedup`: after storing the two-byte file
`[1, 2]` once (under the digest function "byte sum"), a second `put_file` of
the same content returns the metadata and leaves the store unchanged, and
the double store holds a single KV record. -/
theorem blob_from_file_dedup_witness :
    (blob_from_file (fun b => b.sum) (runPuts (fun b => b.sum) emptyBlobStore [[1, 2]]) [1, 2] =
      ({ contenthash := 3, size := 2 },
        runPuts (fun b => b.sum) emptyBlobStore [[1, 2]])) ∧
    ((runPuts (fun b => b.sum) emptyBlobStore [[1, 2], [1, 2]]).kv.map Prod.fst).Nodup := by
  refine ⟨?_, ((blob_from_file_dedup (fun b => b.sum) emptyBlobStore [1, 2]).2.2
    [[1, 2], [1, 2]]).1⟩
  have := (blob_from_file_dedup (fun b => b.sum)
    (runPuts (fun b => b.sum) emptyBlobStore [[1, 2]]) [1, 2]).1 (by decide)
  simpa using this


/-! ## Branch, current pointer, and the commit workflows (`core/commit.rs`) -/

/-- `core/branch.rs::Branch`. -/
structure Branch where
  id : Nat
  name : String
  headseq : Nat
  ver : Nat
  parent : Nat
  parentseq : Nat
deriving DecidableEq, Repr

/-- `core/commit.rs::CurrentCommitSpec`. -/
structure CurrentCommitSpec where
  commit_id : CommitID
  ver : Nat
  rebuild_seq : Nat
  rebuild_ver : Nat
deriving DecidableEq, Repr

/-- The persistent stores touched by the commit workflows: the commits table
(a version stack per `(branch, seq)` key; an absent key is the empty stack),
the branches table, the tree-node table, and the current-commit pointer
(the single `"current"` record of the `sequences` tree). -/
structure Store where
  commits : CommitID → List Commit
  branches : Nat → Option Branch
  trees : List (Digest × Tree)
  current : Option CurrentCommitSpec

/-- `storage/commit.rs::save` on the whole table: read-modify-write of the
stack at `c.id` (see `stackInsert`). -/
def Store.saveCommit (st : Store) (c : Commit) : Store :=
  { st with commits := fun id =>
      if id = c.id then stackInsert c (st.commits c.id) else st.commits id }

/-- `storage/commit.rs::get`: resolve `(commit_id, ver)` against the stack. -/
def commitGet (st : Store) (id : CommitID) (ver : Nat) : Option Commit :=
  stackGet (st.commits id) ver

/-- `storage/branch.rs::update_headseq` (via `Branch::advance_head`):
read-modify-write setting `headseq` and `ver`; `none` models
`BranchError::NotFound`. -/
def Store.advanceHead (st : Store) (id : Nat) (newseq newver : Nat) : Option Store :=
  match st.branches id with
  | none => none
  | some b =>
    let b' : Branch := { b with headseq := newseq, ver := newver }
    some { st with branches := fun i => if i = id then some b' else st.branches i }

/-- `core/commit.rs::Commit::get_current` (lines 319-322): read the current
pointer, then resolve it at its recorded version. -/
def getCurrent (st : Store) : Option Commit :=
  match st.current with
  | none => none
  | some cur => commitGet st cur.commit_id cur.ver

/-- `storage/commit.rs::CommitError`, with `Other` carrying the source's
message strings. -/
inductive CommitError where
  | NotFound
  | NoBranchSelected
  | NoChanges
  | Other (msg : String)
deriving DecidableEq, Repr

/-- The sentinel-amendment refusal, `CommitError::Other("Cannot amend
centinel commit")` in the source — the error the design taxonomy names
`CannotAmendSentinel`. -/
def cannotAmendSentinel : CommitError := .Other "Cannot amend centinel commit"

/-- The rebuild loop body of `Commit::amend` (lines 217-229 metadata-only;
lines 240-257 files-changed, whose store effect is textually identical): for
each `seq` in turn, load the commit at the old branch version, bump the
running version, overwrite the loaded commit's `ver` and save it back.
Returns the final running version.  A failing load propagates `NotFound`
(the `?` operator) with the store as mutated so far. -/
def rebuildLoop (branchId : Nat) (branchVer : Nat) :
    List Nat → Store → Nat → Store × Except CommitError Nat
  | [], st, ver => (st, .ok ver)
  | seq :: rest, st, ver =>
    match commitGet st ⟨branchId, seq⟩ branchVer with
    | none => (st, .error .NotFound)
    | some c =>
      rebuildLoop branchId branchVer rest (st.saveCommit { c with ver := ver + 1 }) (ver + 1)

/-- The common tail of both workflows:
`Branch::advance_head(branch, seq, ver)` then return the commit. -/
def advanceFinish (st : Store) (branchId seqHead finalVer : Nat) (commit : Commit) :
    Store × Except CommitError Commit :=
  match st.advanceHead branchId seqHead finalVer with
  | none => (st, .error (.Other "Failed to advance branch head"))
  | some st' => (st', .ok commit)

/-- `Commit::amend` after the `NoChanges` check (lines 198-270): pick the
message, load the branch, save the amended commit at the same id with
`ver = branch.ver + 1`, rebuild when the amended commit is below the head
(`for seq in commit.id.seq..=branch.headseq`, with the rebuild marker set
and cleared around the loop when files changed), then advance the branch
head to `(commit.id.seq, final ver)`. -/
def amendWrite (h : Bytes → Digest) (st1 : Store) (current : CurrentCommitSpec)
    (current_commit : Commit) (message : Option String) (treehash : Digest) :
    Store × Except CommitError Commit :=
  let commit_message := message.getD current_commit.message
  match st1.branches current_commit.id.branch with
  | none => (st1, .error (.Other "Branch error"))
  | some branch =>
    let new_ver := branch.ver + 1
    let commit := create_commit h current_commit.id new_ver treehash commit_message
    let st2 := st1.saveCommit commit
    if commit.id.seq < branch.headseq then
      if current_commit.treehash = treehash then
        match rebuildLoop commit.id.branch branch.ver
            (List.range' commit.id.seq (branch.headseq + 1 - commit.id.seq)) st2 new_ver with
        | (st3, .error e) => (st3, .error e)
        | (st3, .ok final_ver) => advanceFinish st3 commit.id.branch commit.id.seq final_ver commit
      else
        let curMark : CurrentCommitSpec :=
          { current with rebuild_seq := commit.id.seq, rebuild_ver := new_ver }
        let stMark : Store := { st2 with current := some curMark }
        match rebuildLoop commit.id.branch branch.ver
            (List.range' commit.id.seq (branch.headseq + 1 - commit.id.seq)) stMark new_ver with
        | (st3, .error e) => (st3, .error e)
        | (st3, .ok final_ver) =>
          let curClear : CurrentCommitSpec := { current with rebuild_seq := 0, rebuild_ver := 0 }
          let st3b : Store := { st3 with current := some curClear }
          advanceFinish st3b commit.id.branch commit.id.seq final_ver commit
    else
      advanceFinish st2 commit.id.branch commit.id.seq new_ver commit

/-- `core/commit.rs::Commit::amend` (lines 172-271), source order: read the
current pointer and resolve the current commit; refuse the sentinel
(`seq == 0`) before anything is written; persist the working tree
(`treeCreate` abstracts `Tree::create`: it yields the new root digest and
the tree store after the persist); return `NoChanges` when the tree is
unchanged and the message is `None` or identical; otherwise hand over to
`amendWrite`. -/
def amend (h : Bytes → Digest)
    (treeCreate : List (Digest × Tree) → Digest × List (Digest × Tree))
    (st : Store) (message : Option String) : Store × Except CommitError Commit :=
  match st.current with
  | none => (st, .error .NotFound)
  | some current =>
    match commitGet st current.commit_id current.ver with
    | none => (st, .error .NotFound)
    | some current_commit =>
      if current_commit.id.seq = 0 then
        (st, .error cannotAmendSentinel)
      else
        let treehash := (treeCreate st.trees).1
        let st1 := { st with trees := (treeCreate st.trees).2 }
        if current_commit.treehash = treehash ∧
            (message = none ∨ message = some current_commit.message) then
          (st1, .error .NoChanges)
        else
          amendWrite h st1 current current_commit message treehash

/-- `Commit::new` after the `NoChanges` check (lines 131-167): load the
branch, save the new commit at `(branch, seq + 1)` with
`ver = branch.ver + 1` (the mid-branch rebuild at line 145 is a TODO in the
source and has no effect), save the new current pointer, advance the head. -/
def commitNewWrite (h : Bytes → Digest) (st1 : Store) (commit : Commit)
    (message : String) (treehash : Digest) : Store × Except CommitError Commit :=
  match st1.branches commit.id.branch with
  | none => (st1, .error (.Other "Branch error"))
  | some branch =>
    let new_ver := branch.ver + 1
    let new_commit := create_commit h ⟨commit.id.branch, commit.id.seq + 1⟩ new_ver
      treehash message
    let st2 := st1.saveCommit new_commit
    let st3 := { st2 with current := some ⟨new_commit.id, new_ver, 0, 0⟩ }
    advanceFinish st3 new_commit.id.branch new_commit.id.seq new_ver new_commit

/-- `core/commit.rs::Commit::new` (lines 119-168): persist the working tree
first, resolve the current commit, signal `NoChanges` when the root digest
matches the current commit's `treehash`, otherwise write the new commit. -/
def commitNew (h : Bytes → Digest)
    (treeCreate : List (Digest × Tree) → Digest × List (Digest × Tree))
    (st : Store) (message : String) : Store × Except CommitError Commit :=
  let treehash := (treeCreate st.trees).1
  let st1 := { st with trees := (treeCreate st.trees).2 }
  match st1.current with
  | none => (st1, .error .NotFound)
  | some current =>
    match commitGet st1 current.commit_id current.ver with
    | none => (st1, .error .NotFound)
    | some commit =>
      if commit.treehash = treehash then (st1, .error .NoChanges)
      else commitNewWrite h st1 commit message treehash

theorem rebuildLoop_error_ne (branchId branchVer : Nat) (seqs : List Nat)
    (st : Store) (ver : Nat) (st3 : Store) (e : CommitError) :
    rebuildLoop branchId branchVer seqs st ver = (st3, .error e) →
      e ≠ CommitError.NoChanges := by
  induction seqs generalizing st ver with
  | nil => intro hx; exact absurd (congrArg Prod.snd hx) (by simp [rebuildLoop])
  | cons seq rest ih =>
    simp only [rebuildLoop]
    cases commitGet st ⟨branchId, seq⟩ branchVer with
    | none =>
      intro hx
      have : Except.error CommitError.NotFound = Except.error e := congrArg Prod.snd hx
      intro he
      rw [he] at this
      exact absurd (Except.error.inj this) (by decide)
    | some c => exact ih _ _

theorem advanceFinish_no_nochanges (st : Store) (branchId seqHead finalVer : Nat)
    (commit : Commit) :
    (advanceFinish st branchId seqHead finalVer commit).2 ≠ .error CommitError.NoChanges := by
  simp only [advanceFinish]
  cases st.advanceHead branchId seqHead finalVer with
  | none => simp
  | some st' => simp

theorem amendWrite_no_nochanges (h : Bytes → Digest) (st1 : Store)
    (current : CurrentCommitSpec) (current_commit : Commit) (message : Option String)
    (treehash : Digest) :
    (amendWrite h st1 current current_commit message treehash).2 ≠
      .error CommitError.NoChanges := by
  simp only [amendWrite]
  cases st1.branches current_commit.id.branch with
  | none => simp
  | some branch =>
    simp only []
    split
    · split
      · split
        · rename_i st3 e heq
          intro hx
          exact rebuildLoop_error_ne _ _ _ _ _ _ _ heq (Except.error.inj hx)
        · exact advanceFinish_no_nochanges _ _ _ _ _
      · split
        · rename_i st3 e heq
          intro hx
          exact rebuildLoop_error_ne _ _ _ _ _ _ _ heq (Except.error.inj hx)
        · exact advanceFinish_no_nochanges _ _ _ _ _
    · exact advanceFinish_no_nochanges _ _ _ _ _

theorem commitNewWrite_no_nochanges (h : Bytes → Digest) (st1 : Store) (commit : Commit)
    (message : String) (treehash : Digest) :
    (commitNewWrite h st1 commit message treehash).2 ≠ .error CommitError.NoChanges := by
  simp only [commitNewWrite]
  cases st1.branches commit.id.branch with
  | none => simp
  | some branch => exact advanceFinish_no_nochanges _ _ _ _ _

/-- C5: whenever the current pointer resolves to a commit with `seq = 0`,
`Commit::amend` returns the `CannotAmendSentinel` error and leaves the
entire store — commit stacks, branch store, tree store, and current-commit
pointer — unchanged, for every working-directory content (`treeCreate`) and
every message argument. -/
theorem amend_sentinel_immutable (h : Bytes → Digest)
    (treeCreate : List (Digest × Tree) → Digest × List (Digest × Tree))
    (st : Store) (message : Option String) (cur : CurrentCommitSpec) (cc : Commit)
    (hcur : st.current = some cur)
    (hcc : commitGet st cur.commit_id cur.ver = some cc)
    (hseq : cc.id.seq = 0) :
    amend h treeCreate st message = (st, .error cannotAmendSentinel) := by
  simp [amend, hcur, hcc, hseq]

/-- Concrete states for the commit-workflow witnesses: a `main` branch
(id 1, head sequence 2, version 2) with sentinel commit and two user
commits. -/
def wMain : Branch :=
  { id := 1, name := "main", headseq := 2, ver := 2, parent := 0, parentseq := 0 }

def wC0 : Commit :=
  { id := ⟨1, 0⟩, ver := 0, hash := 0, treehash := 7, message := "Initial commit" }

def wC1 : Commit := { id := ⟨1, 1⟩, ver := 1, hash := 0, treehash := 8, message := "m1" }

def wC2 : Commit := { id := ⟨1, 2⟩, ver := 2, hash := 0, treehash := 9, message := "m2" }

def wCommits : CommitID → List Commit := fun id =>
  if id = ⟨1, 0⟩ then [wC0] else if id = ⟨1, 1⟩ then [wC1]
  else if id = ⟨1, 2⟩ then [wC2] else []

def wBranches : Nat → Option Branch := fun i => if i = 1 then some wMain else none

/-- A working directory whose persisted root tree digest is `8` (the tree
of `wC1`), with no new tree-store writes. -/
def wTree8 : List (Digest × Tree) → Digest × List (Digest × Tree) := fun ts => (8, ts)

/-- A working directory whose persisted root tree digest is `7` (the tree
of the sentinel `wC0`). -/
def wTree7 : List (Digest × Tree) → Digest × List (Digest × Tree) := fun ts => (7, ts)

def wHash : Bytes → Digest := fun _ => 0

/-- Store whose current pointer is the mid-branch commit `(1, 1)` at
version 1 (head is `(1, 2)`). -/
def wStoreMid : Store :=
  { commits := wCommits, branches := wBranches, trees := [], current := some ⟨⟨1, 1⟩, 1, 0, 0⟩ }

/-- Store whose current pointer is the sentinel `(1, 0)`. -/
def wStoreSentinel : Store :=
  { commits := wCommits, branches := wBranches, trees := [], current := some ⟨⟨1, 0⟩, 0, 0, 0⟩ }

/-- Store whose current pointer is the tip commit `(1, 2)` at version 2. -/
def wStoreTip : Store :=
  { commits := wCommits, branches := wBranches, trees := [], current := some ⟨⟨1, 2⟩, 2, 0, 0⟩ }

/-- Witness for `amend_sentinel_immutable`: at the concrete sentinel store,
with unchanged working tree and no message, amend returns the sentinel
refusal and the untouched store. -/
theorem amend_sentinel_immutable_witness :
    wStoreSentinel.current = some ⟨⟨1, 0⟩, 0, 0, 0⟩ ∧
    amend wHash wTree7 wStoreSentinel none = (wStoreSentinel, .error cannotAmendSentinel) :=
  ⟨rfl, amend_sentinel_immutable wHash wTree7 wStoreSentinel none ⟨⟨1, 0⟩, 0, 0, 0⟩ wC0
    rfl rfl rfl⟩

/-- C6 counterexample: at the sentinel store the working tree is unchanged
(the persisted digest `7` equals `wC0.treehash`) and the message argument
is `none`, yet `Commit::amend` returns the sentinel refusal, not
`NoChanges` — the claimed "exactly when" fails at the sentinel. -/
theorem amend_nochanges_counterexample :
    commitGet wStoreSentinel ⟨1, 0⟩ 0 = some wC0 ∧
    (wTree7 wStoreSentinel.trees).1 = wC0.treehash ∧
    (amend wHash wTree7 wStoreSentinel none).2 = .error cannotAmendSentinel ∧
    cannotAmendSentinel ≠ CommitError.NoChanges :=
  ⟨rfl, rfl, rfl, by decide⟩

/-- C6 (amended): `Commit::new` returns `NoChanges` exactly when the freshly
persisted root tree digest equals the current commit's `treehash`, and then
writes no commit, changes no branch, and leaves the current pointer alone;
`Commit::amend`, provided the current commit is not the sentinel
(`seq ≠ 0`), returns `NoChanges` exactly when the tree digest is unchanged
and the message argument is `none` or identical to the current message. -/
theorem nochanges_iff_spec (h : Bytes → Digest)
    (tc : List (Digest × Tree) → Digest × List (Digest × Tree))
    (st : Store) (msg : String) (omsg : Option String)
    (cur : CurrentCommitSpec) (cc : Commit)
    (hcur : st.current = some cur)
    (hcc : commitGet st cur.commit_id cur.ver = some cc) :
    ((commitNew h tc st msg).2 = .error CommitError.NoChanges ↔
      cc.treehash = (tc st.trees).1) ∧
    ((commitNew h tc st msg).2 = .error CommitError.NoChanges →
      (commitNew h tc st msg).1.commits = st.commits ∧
      (commitNew h tc st msg).1.branches = st.branches ∧
      (commitNew h tc st msg).1.current = st.current) ∧
    (cc.id.seq ≠ 0 →
      ((amend h tc st omsg).2 = .error CommitError.NoChanges ↔
        (cc.treehash = (tc st.trees).1 ∧
          (omsg = none ∨ omsg = some cc.message)))) := by
  have hcc2 : commitGet
      { commits := st.commits, branches := st.branches,
        trees := (tc st.trees).2, current := some cur }
      cur.commit_id cur.ver = some cc := hcc
  refine ⟨?_, ?_, ?_⟩
  · by_cases heq : cc.treehash = (tc st.trees).1
    · simp [commitNew, hcur, hcc2, heq]
    · simp only [commitNew, hcur, hcc2, if_neg heq]
      exact ⟨fun hres => absurd hres (commitNewWrite_no_nochanges h _ cc msg _),
        fun hres => absurd hres heq⟩
  · intro hres
    by_cases heq : cc.treehash = (tc st.trees).1
    · simp [commitNew, hcur, hcc2, heq]
    · simp only [commitNew, hcur, hcc2, if_neg heq] at hres
      exact absurd hres (commitNewWrite_no_nochanges h _ cc msg _)
  · intro hseq
    by_cases hcond : cc.treehash = (tc st.trees).1 ∧ (omsg = none ∨ omsg = some cc.message)
    · simp [amend, hcur, hcc, hseq, hcond]
    · simp only [amend, hcur, hcc, if_neg hseq, if_neg hcond]
      exact ⟨fun hres => absurd hres (amendWrite_no_nochanges h _ cur cc omsg _),
        fun hres => absurd hres hcond⟩

/-- Witness for `nochanges_iff_spec`: at the tip store with an unchanged
working tree (digest `9` is `wC2.treehash`), `Commit::new` signals
`NoChanges`, and `Commit::amend` with no message signals `NoChanges`. -/
theorem nochanges_iff_spec_witness :
    (commitNew wHash (fun ts => (9, ts)) wStoreTip "x").2 = .error CommitError.NoChanges ∧
    (amend wHash (fun ts => (9, ts)) wStoreTip none).2 = .error CommitError.NoChanges := by
  have hs := nochanges_iff_spec wHash (fun ts => (9, ts)) wStoreTip "x" none
    ⟨⟨1, 2⟩, 2, 0, 0⟩ wC2 rfl rfl
  exact ⟨hs.1.mpr rfl, (hs.2.2 (by decide)).mpr ⟨rfl, Or.inl rfl⟩⟩


theorem create_commit_id (h : Bytes → Digest) (id : CommitID) (ver : Nat) (th : Digest)
    (msg : String) : (create_commit h id ver th msg).id = id := rfl

theorem create_commit_ver (h : Bytes → Digest) (id : CommitID) (ver : Nat) (th : Digest)
    (msg : String) : (create_commit h id ver th msg).ver = ver := rfl

theorem stackGet_stackInsert_newer (c : Commit) (s : List Commit) (v : Nat) (hv : v < c.ver) :
    stackGet (stackInsert c s) v = stackGet s v := by
  induction s with
  | nil =>
    simp only [stackInsert, stackGet]
    rw [if_neg (by omega)]
  | cons x xs ih =>
    simp only [stackInsert]
    by_cases h1 : x.ver < c.ver
    · rw [if_pos h1]
      simp only [stackGet]
      rw [if_neg (by omega)]
    · rw [if_neg h1]
      by_cases h2 : c.ver = x.ver
      · rw [if_pos h2]
        simp only [stackGet]
        rw [if_neg (by omega), if_neg (by omega)]
      · rw [if_neg h2]
        simp only [stackGet]
        by_cases hx : x.ver ≤ v
        · rw [if_pos hx, if_pos hx]
        · rw [if_neg hx, if_neg hx, ih]

/-- C10: after any successful `Commit::amend` of the tip commit (the
amended sequence equals the branch's head sequence) — for every message
argument (`None`, the identical text, or a new string) and every
working-directory content — the stored current-commit pointer record is
not modified: its `ver` field still holds the pre-amend branch version, so
a subsequent `Commit::get_current` resolves to the pre-amend version of
the commit (the same record as before the amend), not the newly amended
one. -/
theorem amend_tip_keeps_current (h : Bytes → Digest)
    (tc : List (Digest × Tree) → Digest × List (Digest × Tree))
    (st : Store) (msg : Option String) (c : Commit)
    (cur : CurrentCommitSpec) (cc : Commit) (br : Branch)
    (hcur : st.current = some cur)
    (hcc : commitGet st cur.commit_id cur.ver = some cc)
    (hid : cc.id = cur.commit_id)
    (hbr : st.branches cc.id.branch = some br)
    (htip : cc.id.seq = br.headseq)
    (hver : cur.ver ≤ br.ver)
    (hok : (amend h tc st msg).2 = .ok c) :
    c = create_commit h cc.id (br.ver + 1) (tc st.trees).1 (msg.getD cc.message) ∧
    (amend h tc st msg).1.current = st.current ∧
    getCurrent (amend h tc st msg).1 = some cc ∧
    getCurrent st = some cc := by
  by_cases hseq : cc.id.seq = 0
  · exfalso
    rw [show amend h tc st msg = (st, .error cannotAmendSentinel) by
      simp only [amend, hcur, hcc]
      rw [if_pos hseq]] at hok
    exact absurd hok (by simp)
  · by_cases hnocond : cc.treehash = (tc st.trees).1 ∧ (msg = none ∨ msg = some cc.message)
    · exfalso
      rw [show amend h tc st msg =
          ({ st with trees := (tc st.trees).2 }, .error CommitError.NoChanges) by
        simp only [amend, hcur, hcc]
        rw [if_neg hseq, if_pos hnocond]] at hok
      exact absurd hok (by simp)
    · have hamend : amend h tc st msg =
          amendWrite h { st with trees := (tc st.trees).2 } cur cc msg (tc st.trees).1 := by
        simp only [amend, hcur, hcc]
        rw [if_neg hseq, if_neg hnocond]
      have hnotip : ¬ cc.id.seq < br.headseq := by omega
      have hwrite : amendWrite h { st with trees := (tc st.trees).2 } cur cc msg
          (tc st.trees).1 =
          advanceFinish
            (({ st with trees := (tc st.trees).2 } : Store).saveCommit
              (create_commit h cc.id (br.ver + 1) (tc st.trees).1 (msg.getD cc.message)))
            cc.id.branch cc.id.seq (br.ver + 1)
            (create_commit h cc.id (br.ver + 1) (tc st.trees).1 (msg.getD cc.message)) := by
        simp only [amendWrite, hbr, create_commit_id]
        rw [if_neg hnotip]
      rw [hamend, hwrite] at hok ⊢
      simp only [advanceFinish, Store.advanceHead, Store.saveCommit, create_commit_id, hbr]
        at hok ⊢
      refine ⟨?_, trivial, ?_, ?_⟩
      · exact (Except.ok.inj hok).symm
      · simp only [getCurrent, hcur, commitGet]
        rw [hid, if_pos rfl]
        rw [stackGet_stackInsert_newer _ _ _
          (show cur.ver <
              (create_commit h cur.commit_id (br.ver + 1) (tc st.trees).1
                (msg.getD cc.message)).ver by
            rw [create_commit_ver]
            omega)]
        exact hcc
      · simp only [getCurrent, hcur]
        exact hcc

/-- Witness for `amend_tip_keeps_current`: amend the tip commit `(1, 2)` of
the concrete store with message `None` and a changed working tree (root
digest 10 instead of the committed 9); the amend succeeds, the current
pointer still reads `((1, 2), ver 2)` and `get_current` still yields the
old `wC2`. -/
theorem amend_tip_keeps_current_witness :
    (amend wHash (fun ts => (10, ts)) wStoreTip none).2 =
        .ok (create_commit wHash ⟨1, 2⟩ 3 10 "m2") ∧
    (amend wHash (fun ts => (10, ts)) wStoreTip none).1.current = wStoreTip.current ∧
    getCurrent (amend wHash (fun ts => (10, ts)) wStoreTip none).1 = some wC2 ∧
    getCurrent wStoreTip = some wC2 := by
  have hok : (amend wHash (fun ts => (10, ts)) wStoreTip none).2 =
      .ok (create_commit wHash ⟨1, 2⟩ 3 10 "m2") := rfl
  have hs := amend_tip_keeps_current wHash (fun ts => (10, ts)) wStoreTip none
    (create_commit wHash ⟨1, 2⟩ 3 10 "m2") ⟨⟨1, 2⟩, 2, 0, 0⟩ wC2 wMain
    rfl rfl rfl rfl (by decide) (by decide) hok
  exact ⟨hok, hs.2.1, hs.2.2.1, hs.2.2.2⟩

/-- C4 (code evaluation at the failing input): amending the mid-branch
commit `(1, 1)` with only a new message (`"new"`; files unchanged).  The
source's metadata-only rebuild loop at `core/commit.rs:217` runs
`for seq in commit.id.seq..=branch.headseq` — starting at the amended
sequence itself, not one past it.  It therefore reloads the old `(1, 1)`
commit (message `"m1"`) at the old branch version and re-saves it with a
version above the amended commit's: the stack at `(1, 1)` ends up
`[ver 4 "m1", ver 3 "new", ver 1 "m1"]`, the amended commit is written
twice rather than exactly once, and resolving `(1, 1)` at the final branch
version `5` yields the old message `"m1"` — the amendment is lost. -/
theorem amend_metadata_rebuild_offbyone :
    (amend wHash wTree8 wStoreMid (some "new")).2 =
        .ok (create_commit wHash ⟨1, 1⟩ 3 8 "new") ∧
    ((amend wHash wTree8 wStoreMid (some "new")).1.commits ⟨1, 1⟩).map Commit.ver =
        [4, 3, 1] ∧
    ((amend wHash wTree8 wStoreMid (some "new")).1.commits ⟨1, 1⟩).map Commit.message =
        ["m1", "new", "m1"] ∧
    ((amend wHash wTree8 wStoreMid (some "new")).1.branches 1).map Branch.ver = some 5 ∧
    (commitGet (amend wHash wTree8 wStoreMid (some "new")).1 ⟨1, 1⟩ 5).map Commit.message =
        some "m1" :=
  ⟨rfl, rfl, rfl, rfl, rfl⟩


/-! ## Filesystem model and the two-cursor status walk (`core/tree.rs`) -/

/-- A live directory: named subdirectories and named files with their byte
contents.  Symbolic links are out of scope (`parse_entries` rejects them
with an error before any list is built). -/
inductive FS where
  | dir (dirs : List (String × FS)) (files : List (String × Bytes)) : FS

def FS.dirsOf : FS → List (String × FS)
  | .dir d _ => d

def FS.filesOf : FS → List (String × Bytes)
  | .dir _ f => f

/-- `global::DATA_FOLDER`. -/
def DATA_FOLDER : String := ".vx"

/-- `global::TEMP_FOLDER`. -/
def TEMP_FOLDER : String := ".vxtemp"

/-- The `parse_entries` skip test: entries named `.vx` or `.vxtemp` are not
listed. -/
def notReserved (n : String) : Bool := n ≠ DATA_FOLDER && n ≠ TEMP_FOLDER

/-- Insertion step of sorting a name-keyed list ascending by name
(`Vec::sort` on the names; byte order on UTF-8 equals this string order). -/
def insertByName {α} (key : α → String) (a : α) : List α → List α
  | [] => [a]
  | x :: xs => if key a ≤ key x then a :: x :: xs else x :: insertByName key a xs

/-- `parse_entries` sorts each of the two name lists ascending. -/
def sortByName {α} (key : α → String) (l : List α) : List α :=
  l.foldr (insertByName key) []

/-- The subdirectory listing `parse_entries` produces for a directory:
reserved names skipped, sorted by name. -/
def fsDirs (fs : FS) : List (String × FS) :=
  sortByName Prod.fst (fs.dirsOf.filter (fun p => notReserved p.1))

/-- The file listing `parse_entries` produces for a directory. -/
def fsFiles (fs : FS) : List (String × Bytes) :=
  sortByName Prod.fst (fs.filesOf.filter (fun p => notReserved p.1))

/-- `storage/tree.rs::get`: tree-store lookup by digest. -/
abbrev TreeStore := List (Digest × Tree)

def treeGet (ts : TreeStore) (d : Digest) : Option Tree :=
  (ts.find? (fun p => p.1 == d)).map Prod.snd

/-- `core/tree.rs::ChangeAction`. -/
inductive ChangeAction where
  | Added
  | Deleted
  | Modified
deriving DecidableEq, Repr

/-- `core/tree.rs::ChangeType`. -/
inductive ChangeType where
  | File
  | Folder
deriving DecidableEq, Repr

/-- `core/tree.rs::Change`; the path is kept as its relative components. -/
structure Change where
  action : ChangeAction
  path : List String
  change_type : ChangeType
  contenthash : Digest
deriving DecidableEq, Repr

/-- `core/tree.rs::process_files` (lines 389-489): the file-list two-cursor
merge of one directory.  Equal names advance both cursors and emit
`Modified` (with the freshly computed filesystem hash) only when the hashes
differ; a filesystem name below the stored name emits `Added` with
`Digest::NONE`; a filesystem name above the stored name emits `Deleted`
carrying the stored blob's content hash; an exhausted stored side emits
`Added` with the computed hash for each remaining filesystem file; an
exhausted filesystem side emits `Deleted` for each remaining stored file. -/
def processFiles (h : Bytes → Digest) (cur : List String) :
    List (String × Bytes) → List File → List Change
  | [], vxl => vxl.map fun f => Change.mk .Deleted (cur ++ [f.name]) .File f.blob.contenthash
  | fsl@(_ :: _), [] => fsl.map fun p => Change.mk .Added (cur ++ [p.1]) .File (h p.2)
  | (n, b) :: fsl, f :: vxl =>
    if n = f.name then
      (if h b ≠ f.blob.contenthash then [Change.mk .Modified (cur ++ [n]) .File (h b)]
        else []) ++ processFiles h cur fsl vxl
    else if n < f.name then
      Change.mk .Added (cur ++ [n]) .File Digest.NONE :: processFiles h cur fsl (f :: vxl)
    else
      Change.mk .Deleted (cur ++ [f.name]) .File f.blob.contenthash ::
        processFiles h cur ((n, b) :: fsl) vxl
termination_by fsl vxl => fsl.length + vxl.length

theorem sizeOf_insertByName {α} [SizeOf α] (key : α → String) (a : α) (l : List α) :
    sizeOf (insertByName key a l) = 1 + sizeOf a + sizeOf l := by
  induction l with
  | nil => simp [insertByName]
  | cons x xs ih =>
    simp only [insertByName]
    split
    · simp
    · simp only [List.cons.sizeOf_spec, ih]
      omega

theorem sizeOf_sortByName {α} [SizeOf α] (key : α → String) (l : List α) :
    sizeOf (sortByName key l) = sizeOf l := by
  induction l with
  | nil => rfl
  | cons x xs ih =>
    simp only [sortByName, List.foldr_cons] at *
    rw [sizeOf_insertByName, ih]
    simp

theorem sizeOf_filter_le {α} [SizeOf α] (p : α → Bool) (l : List α) :
    sizeOf (l.filter p) ≤ sizeOf l := by
  induction l with
  | nil => simp
  | cons x xs ih =>
    rw [List.filter_cons]
    split
    · simp only [List.cons.sizeOf_spec]
      omega
    · simp only [List.cons.sizeOf_spec]
      omega

theorem sizeOf_fsDirs_lt (fs : FS) : sizeOf (fsDirs fs) < sizeOf fs := by
  cases fs with
  | dir dirs files =>
    simp only [fsDirs, FS.dirsOf]
    rw [sizeOf_sortByName]
    have h1 := sizeOf_filter_le (fun p => notReserved p.1) dirs
    have h2 : sizeOf (FS.dir dirs files) = 1 + sizeOf dirs + sizeOf files := by simp
    omega

/-- `core/tree.rs::traverse_tree` (lines 177-298), one stack level at a
time: the folder-list two-cursor merge.  Equal names drill down (the
subdirectory's changes are emitted in place, before the rest of this
level); a filesystem-only folder emits `Added` (hash `Digest::NONE`); a
stored-only folder emits `Deleted` carrying the folder hash; at exhaustion
the remaining folders of the other side are emitted and then this
directory's files are processed.  `none` models a failing tree-store
lookup. -/
def statusGo (h : Bytes → Digest) (ts : TreeStore) :
    List String → List (String × FS) → List Folder → List (String × Bytes) → List File →
    Option (List Change)
  | cur, [], vxl, fsF, vxF =>
    some ((vxl.map fun f => Change.mk .Deleted (cur ++ [f.name]) .Folder f.hash) ++
      processFiles h cur fsF vxF)
  | cur, fsl@(_ :: _), [], fsF, vxF =>
    some ((fsl.map fun p => Change.mk .Added (cur ++ [p.1]) .Folder Digest.NONE) ++
      processFiles h cur fsF vxF)
  | cur, (n, sub) :: fsl, f :: vxl, fsF, vxF =>
    if n = f.name then do
      let t' ← treeGet ts f.hash
      let subChanges ← statusGo h ts (cur ++ [n]) (fsDirs sub) t'.folders (fsFiles sub) t'.files
      let rest ← statusGo h ts cur fsl vxl fsF vxF
      pure (subChanges ++ rest)
    else if n < f.name then do
      let rest ← statusGo h ts cur fsl (f :: vxl) fsF vxF
      pure (Change.mk .Added (cur ++ [n]) .Folder Digest.NONE :: rest)
    else do
      let rest ← statusGo h ts cur ((n, sub) :: fsl) vxl fsF vxF
      pure (Change.mk .Deleted (cur ++ [f.name]) .Folder f.hash :: rest)
termination_by cur fsl vxl fsF vxF => (sizeOf fsl, vxl.length)
decreasing_by
· apply Prod.Lex.left
  have := sizeOf_fsDirs_lt sub
  simp only [List.cons.sizeOf_spec, Prod.mk.sizeOf_spec]
  omega
· apply Prod.Lex.left
  simp only [List.cons.sizeOf_spec, Prod.mk.sizeOf_spec]
  omega
· apply Prod.Lex.left
  simp only [List.cons.sizeOf_spec, Prod.mk.sizeOf_spec]
  omega
· apply Prod.Lex.right
  simp only [List.length_cons]
  omega

/-- `Tree::get_changed_files` / `traverse_tree` entry: load the root tree
and walk from the checkout root. -/
def get_changed_files (h : Bytes → Digest) (ts : TreeStore) (fs : FS) (treehash : Digest) :
    Option (List Change) := do
  let t ← treeGet ts treehash
  statusGo h ts [] (fsDirs fs) t.folders (fsFiles fs) t.files


theorem path_eq_iff (cur : List String) (x y : String) : cur ++ [x] = cur ++ [y] ↔ x = y := by
  constructor
  · intro hxy
    simpa using List.append_cancel_left hxy
  · intro hxy
    rw [hxy]

theorem mem_processFiles_deleted (h : Bytes → Digest) (cur : List String)
    (fsl : List (String × Bytes)) (vxl : List File) (m : String) (d : Digest) :
    (fsl.map Prod.fst).Pairwise (· < ·) → (vxl.map File.name).Pairwise (· < ·) →
    (Change.mk .Deleted (cur ++ [m]) .File d ∈ processFiles h cur fsl vxl ↔
      ((∃ f ∈ vxl, f.name = m ∧ f.blob.contenthash = d) ∧ m ∉ fsl.map Prod.fst)) := by
  induction fsl, vxl using processFiles.induct h cur with
  | case1 vxl =>
    intro hfs hvx
    simp only [processFiles, List.mem_map, List.map_nil, List.not_mem_nil,
      not_false_eq_true, and_true]
    constructor
    · rintro ⟨f, hf, heq⟩
      rw [Change.mk.injEq] at heq
      exact ⟨f, hf, (path_eq_iff cur f.name m).mp heq.2.1, heq.2.2.2⟩
    · rintro ⟨f, hf, hname, hhash⟩
      exact ⟨f, hf, by rw [Change.mk.injEq, path_eq_iff]; exact ⟨rfl, hname, rfl, hhash⟩⟩
  | case2 p tail =>
    intro hfs hvx
    simp only [processFiles, List.mem_map]
    constructor
    · rintro ⟨q, hq, heq⟩
      rw [Change.mk.injEq] at heq
      exact absurd heq.1 (by decide)
    · rintro ⟨⟨f, hf, -⟩, -⟩
      exact absurd hf (List.not_mem_nil f)
  | case3 b fsl f vxl ih =>
    intro hfs hvx
    rcases List.pairwise_cons.mp hfs with ⟨hfhead, hfs'⟩
    rcases List.pairwise_cons.mp hvx with ⟨hvhead, hvx'⟩
    have hunfold : processFiles h cur ((f.name, b) :: fsl) (f :: vxl) =
        (if h b ≠ f.blob.contenthash then
          [Change.mk .Modified (cur ++ [f.name]) .File (h b)] else []) ++
          processFiles h cur fsl vxl := by
      simp [processFiles]
    rw [hunfold, List.mem_append, ih hfs' hvx']
    have hmod : Change.mk .Deleted (cur ++ [m]) .File d ∉
        (if h b ≠ f.blob.contenthash then
          [Change.mk .Modified (cur ++ [f.name]) .File (h b)] else []) := by
      split <;> simp
    constructor
    · rintro (habs | ⟨⟨f', hf', hname, hhash⟩, hnot⟩)
      · exact absurd habs hmod
      · have hne : m ≠ f.name := by
          intro hc
          have hlt : f.name < f'.name := hvhead f'.name (List.mem_map.mpr ⟨f', hf', rfl⟩)
          rw [hname, hc] at hlt
          exact lt_irrefl _ hlt
        refine ⟨⟨f', List.mem_cons_of_mem _ hf', hname, hhash⟩, ?_⟩
        simp only [List.map_cons, List.mem_cons]
        rintro (hc | hc)
        · exact hne hc
        · exact hnot hc
    · rintro ⟨⟨f', hf', hname, hhash⟩, hnot⟩
      have hne : m ≠ f.name := by
        intro hc
        exact hnot (by simp [hc])
      rcases List.mem_cons.mp hf' with rfl | hf''
      · exact absurd hname.symm hne
      · refine Or.inr ⟨⟨f', hf'', hname, hhash⟩, fun hc => hnot (by simp [hc])⟩
  | case4 n b fsl f vxl hne hlt ih =>
    intro hfs hvx
    rcases List.pairwise_cons.mp hfs with ⟨hfhead, hfs'⟩
    have hunfold : processFiles h cur ((n, b) :: fsl) (f :: vxl) =
        Change.mk .Added (cur ++ [n]) .File Digest.NONE ::
          processFiles h cur fsl (f :: vxl) := by
      simp [processFiles, hne, hlt]
    rw [hunfold, List.mem_cons, ih hfs' hvx]
    constructor
    · rintro (habs | ⟨⟨f', hf', hname, hhash⟩, hnot⟩)
      · rw [Change.mk.injEq] at habs
        exact absurd habs.1 (by decide)
      · have hmn : n < m := by
          have hfm : f.name ≤ f'.name := by
            rcases List.mem_cons.mp hf' with rfl | hf''
            · exact le_refl _
            · exact le_of_lt ((List.pairwise_cons.mp hvx).1 f'.name
                (List.mem_map.mpr ⟨f', hf'', rfl⟩))
          rw [← hname]
          exact lt_of_lt_of_le hlt hfm
        refine ⟨⟨f', hf', hname, hhash⟩, ?_⟩
        simp only [List.map_cons, List.mem_cons]
        rintro (hc | hc)
        · rw [hc] at hmn
          exact lt_irrefl _ hmn
        · exact hnot hc
    · rintro ⟨⟨f', hf', hname, hhash⟩, hnot⟩
      refine Or.inr ⟨⟨f', hf', hname, hhash⟩, fun hc => hnot (by simp [hc])⟩
  | case5 n b fsl f vxl hne hnlt ih =>
    intro hfs hvx
    rcases List.pairwise_cons.mp hvx with ⟨hvhead, hvx'⟩
    rcases List.pairwise_cons.mp hfs with ⟨hfhead, hfs'⟩
    have hfn : f.name < n := by
      rcases lt_trichotomy n f.name with hc | hc | hc
      · exact absurd hc hnlt
      · exact absurd hc hne
      · exact hc
    have hunfold : processFiles h cur ((n, b) :: fsl) (f :: vxl) =
        Change.mk .Deleted (cur ++ [f.name]) .File f.blob.contenthash ::
          processFiles h cur ((n, b) :: fsl) vxl := by
      simp [processFiles, hne, hnlt]
    rw [hunfold, List.mem_cons, ih hfs hvx']
    constructor
    · rintro (hhead | ⟨⟨f', hf', hname, hhash⟩, hnot⟩)
      · rw [Change.mk.injEq] at hhead
        have hm : f.name = m := ((path_eq_iff cur m f.name).mp hhead.2.1).symm
        have hmn : m < n := hm ▸ hfn
        refine ⟨⟨f, List.mem_cons_self _ _, hm, hhead.2.2.2.symm⟩, ?_⟩
        simp only [List.map_cons, List.mem_cons]
        rintro (hc | hc)
        · rw [hc] at hmn
          exact lt_irrefl _ hmn
        · exact lt_irrefl n (lt_trans (hfhead m hc) hmn)
      · exact ⟨⟨f', List.mem_cons_of_mem _ hf', hname, hhash⟩, hnot⟩
    · rintro ⟨⟨f', hf', hname, hhash⟩, hnot⟩
      rcases List.mem_cons.mp hf' with rfl | hf''
      · exact Or.inl (by
          rw [Change.mk.injEq, path_eq_iff]
          exact ⟨rfl, hname.symm, rfl, hhash.symm⟩)
      · exact Or.inr ⟨⟨f', hf'', hname, hhash⟩, hnot⟩

theorem mem_map_fst_iff {β} (m : String) (l : List (String × β)) :
    m ∈ l.map Prod.fst ↔ ∃ b, (m, b) ∈ l := by
  constructor
  · intro hm
    rcases List.mem_map.mp hm with ⟨⟨a, b⟩, hq, hqm⟩
    cases hqm
    exact ⟨b, hq⟩
  · rintro ⟨b, hb⟩
    exact List.mem_map.mpr ⟨(m, b), hb, rfl⟩

theorem mem_processFiles_modified (h : Bytes → Digest) (cur : List String)
    (fsl : List (String × Bytes)) (vxl : List File) (m : String) (d : Digest) :
    (fsl.map Prod.fst).Pairwise (· < ·) → (vxl.map File.name).Pairwise (· < ·) →
    (Change.mk .Modified (cur ++ [m]) .File d ∈ processFiles h cur fsl vxl ↔
      ∃ b, (m, b) ∈ fsl ∧ h b = d ∧
        ∃ f ∈ vxl, f.name = m ∧ h b ≠ f.blob.contenthash) := by
  induction fsl, vxl using processFiles.induct h cur with
  | case1 vxl =>
    intro hfs hvx
    simp only [processFiles, List.mem_map]
    constructor
    · rintro ⟨f, hf, heq⟩
      rw [Change.mk.injEq] at heq
      exact absurd heq.1 (by decide)
    · rintro ⟨b, hb, -⟩
      exact absurd hb (List.not_mem_nil _)
  | case2 p tail =>
    intro hfs hvx
    simp only [processFiles, List.mem_map]
    constructor
    · rintro ⟨q, hq, heq⟩
      rw [Change.mk.injEq] at heq
      exact absurd heq.1 (by decide)
    · rintro ⟨b, -, -, f, hf, -⟩
      exact absurd hf (List.not_mem_nil _)
  | case3 b₀ fsl f vxl ih =>
    intro hfs hvx
    rcases List.pairwise_cons.mp hfs with ⟨hfhead, hfs'⟩
    rcases List.pairwise_cons.mp hvx with ⟨hvhead, hvx'⟩
    have hunfold : processFiles h cur ((f.name, b₀) :: fsl) (f :: vxl) =
        (if h b₀ ≠ f.blob.contenthash then
          [Change.mk .Modified (cur ++ [f.name]) .File (h b₀)] else []) ++
          processFiles h cur fsl vxl := by
      simp [processFiles]
    rw [hunfold, List.mem_append, ih hfs' hvx']
    constructor
    · rintro (hhead | ⟨b, hb, hbd, f', hf', hname, hneq⟩)
      · by_cases hc : h b₀ ≠ f.blob.contenthash
        · rw [if_pos hc, List.mem_singleton, Change.mk.injEq] at hhead
          have hm : m = f.name := (path_eq_iff cur m f.name).mp hhead.2.1
          exact ⟨b₀, by simp [hm], hhead.2.2.2.symm, f, List.mem_cons_self _ _, hm.symm, hc⟩
        · rw [if_neg hc] at hhead
          exact absurd hhead (List.not_mem_nil _)
      · exact ⟨b, List.mem_cons_of_mem _ hb, hbd, f', List.mem_cons_of_mem _ hf', hname, hneq⟩
    · rintro ⟨b, hb, hbd, f', hf', hname, hneq⟩
      rcases List.mem_cons.mp hb with hhd | htl
      · obtain ⟨hm, hb0⟩ : m = f.name ∧ b = b₀ := by
          injection hhd with h1 h2
          exact ⟨h1, h2⟩
        rcases List.mem_cons.mp hf' with hfe | hf''
        · refine Or.inl ?_
          rw [hfe] at hneq
          rw [hb0] at hneq hbd
          rw [if_pos hneq, List.mem_singleton, Change.mk.injEq, path_eq_iff]
          exact ⟨rfl, hm, rfl, hbd.symm⟩
        · exfalso
          have := hvhead f'.name (List.mem_map.mpr ⟨f', hf'', rfl⟩)
          rw [hname, hm] at this
          exact lt_irrefl _ this
      · have hfm : f.name < m :=
          hfhead m (List.mem_map.mpr ⟨(m, b), htl, rfl⟩)
        rcases List.mem_cons.mp hf' with hfe | hf''
        · exfalso
          rw [hfe] at hname
          rw [hname] at hfm
          exact lt_irrefl _ hfm
        · exact Or.inr ⟨b, htl, hbd, f', hf'', hname, hneq⟩
  | case4 n b₀ fsl f vxl hne hlt ih =>
    intro hfs hvx
    rcases List.pairwise_cons.mp hfs with ⟨hfhead, hfs'⟩
    rcases List.pairwise_cons.mp hvx with ⟨hvhead, hvx'⟩
    have hunfold : processFiles h cur ((n, b₀) :: fsl) (f :: vxl) =
        Change.mk .Added (cur ++ [n]) .File Digest.NONE ::
          processFiles h cur fsl (f :: vxl) := by
      simp [processFiles, hne, hlt]
    rw [hunfold, List.mem_cons, ih hfs' hvx]
    constructor
    · rintro (habs | ⟨b, hb, hbd, f', hf', hname, hneq⟩)
      · rw [Change.mk.injEq] at habs
        exact absurd habs.1 (by decide)
      · exact ⟨b, List.mem_cons_of_mem _ hb, hbd, f', hf', hname, hneq⟩
    · rintro ⟨b, hb, hbd, f', hf', hname, hneq⟩
      rcases List.mem_cons.mp hb with hhd | htl
      · exfalso
        obtain ⟨hm, rfl⟩ : m = n ∧ b = b₀ := by
          injection hhd with h1 h2
          exact ⟨h1, h2⟩
        have hfm : f.name ≤ f'.name := by
          rcases List.mem_cons.mp hf' with rfl | hf''
          · exact le_refl _
          · exact le_of_lt (hvhead f'.name (List.mem_map.mpr ⟨f', hf'', rfl⟩))
        rw [hname, hm] at hfm
        exact absurd (lt_of_lt_of_le hlt hfm) (lt_irrefl n)
      · exact Or.inr ⟨b, htl, hbd, f', hf', hname, hneq⟩
  | case5 n b₀ fsl f vxl hne hnlt ih =>
    intro hfs hvx
    rcases List.pairwise_cons.mp hvx with ⟨hvhead, hvx'⟩
    rcases List.pairwise_cons.mp hfs with ⟨hfhead, hfs'⟩
    have hfn : f.name < n := by
      rcases lt_trichotomy n f.name with hc | hc | hc
      · exact absurd hc hnlt
      · exact absurd hc hne
      · exact hc
    have hunfold : processFiles h cur ((n, b₀) :: fsl) (f :: vxl) =
        Change.mk .Deleted (cur ++ [f.name]) .File f.blob.contenthash ::
          processFiles h cur ((n, b₀) :: fsl) vxl := by
      simp [processFiles, hne, hnlt]
    rw [hunfold, List.mem_cons, ih hfs hvx']
    constructor
    · rintro (habs | ⟨b, hb, hbd, f', hf', hname, hneq⟩)
      · rw [Change.mk.injEq] at habs
        exact absurd habs.1 (by decide)
      · exact ⟨b, hb, hbd, f', List.mem_cons_of_mem _ hf', hname, hneq⟩
    · rintro ⟨b, hb, hbd, f', hf', hname, hneq⟩
      rcases List.mem_cons.mp hf' with rfl | hf''
      · exfalso
        have hmn : f'.name < n := hfn
        have hm : n ≤ m := by
          rcases List.mem_cons.mp hb with hhd | htl
          · injection hhd with h1 h2
            exact le_of_eq h1.symm
          · exact le_of_lt (hfhead m (List.mem_map.mpr ⟨(m, b), htl, rfl⟩))
        rw [hname] at hmn
        exact absurd (lt_of_lt_of_le hmn hm) (lt_irrefl m)
      · exact Or.inr ⟨b, hb, hbd, f', hf'', hname, hneq⟩

theorem mem_processFiles_added (h : Bytes → Digest) (cur : List String)
    (fsl : List (String × Bytes)) (vxl : List File) (m : String) :
    (fsl.map Prod.fst).Pairwise (· < ·) → (vxl.map File.name).Pairwise (· < ·) →
    ((∃ d, Change.mk .Added (cur ++ [m]) .File d ∈ processFiles h cur fsl vxl) ↔
      (m ∈ fsl.map Prod.fst ∧ m ∉ vxl.map File.name)) := by
  induction fsl, vxl using processFiles.induct h cur with
  | case1 vxl =>
    intro hfs hvx
    simp only [processFiles, List.mem_map, List.map_nil, List.not_mem_nil, false_and]
    constructor
    · rintro ⟨d, f, hf, heq⟩
      rw [Change.mk.injEq] at heq
      exact absurd heq.1 (by decide)
    · exact False.elim
  | case2 p tail =>
    intro hfs hvx
    simp only [processFiles, List.mem_map, List.map_nil, List.not_mem_nil,
      not_false_eq_true, and_true]
    constructor
    · rintro ⟨d, q, hq, heq⟩
      rw [Change.mk.injEq] at heq
      exact ⟨q, hq, (path_eq_iff cur q.1 m).mp heq.2.1⟩
    · rintro ⟨q, hq, hqm⟩
      refine ⟨h q.2, q, hq, ?_⟩
      rw [Change.mk.injEq, path_eq_iff]
      exact ⟨rfl, hqm, rfl, rfl⟩
  | case3 b₀ fsl f vxl ih =>
    intro hfs hvx
    rcases List.pairwise_cons.mp hfs with ⟨hfhead, hfs'⟩
    rcases List.pairwise_cons.mp hvx with ⟨hvhead, hvx'⟩
    have hunfold : processFiles h cur ((f.name, b₀) :: fsl) (f :: vxl) =
        (if h b₀ ≠ f.blob.contenthash then
          [Change.mk .Modified (cur ++ [f.name]) .File (h b₀)] else []) ++
          processFiles h cur fsl vxl := by
      simp [processFiles]
    have hmod : ∀ d, Change.mk .Added (cur ++ [m]) .File d ∉
        (if h b₀ ≠ f.blob.contenthash then
          [Change.mk .Modified (cur ++ [f.name]) .File (h b₀)] else []) := by
      intro d
      split <;> simp
    constructor
    · rintro ⟨d, hd⟩
      rw [hunfold, List.mem_append] at hd
      rcases hd with habs | hd
      · exact absurd habs (hmod d)
      · obtain ⟨hm, hnot⟩ := (ih hfs' hvx').mp ⟨d, hd⟩
        have hne : m ≠ f.name := by
          intro hc
          have := hfhead m hm
          rw [hc] at this
          exact lt_irrefl _ this
        refine ⟨by simp [hm], ?_⟩
        simp only [List.map_cons, List.mem_cons]
        rintro (hc | hc)
        · exact hne hc
        · exact hnot hc
    · rintro ⟨hm, hnot⟩
      have hne : m ≠ f.name := fun hc => hnot (by simp [hc])
      have hm' : m ∈ fsl.map Prod.fst := by
        rcases (mem_map_fst_iff m _).mp hm with ⟨b, hb⟩
        rcases List.mem_cons.mp hb with hhd | htl
        · exact absurd (congrArg Prod.fst hhd) hne
        · exact (mem_map_fst_iff m _).mpr ⟨b, htl⟩
      obtain ⟨d, hd⟩ := (ih hfs' hvx').mpr ⟨hm', fun hc => hnot (by simp [hc])⟩
      exact ⟨d, by rw [hunfold, List.mem_append]; exact Or.inr hd⟩
  | case4 n b₀ fsl f vxl hne hlt ih =>
    intro hfs hvx
    rcases List.pairwise_cons.mp hfs with ⟨hfhead, hfs'⟩
    rcases List.pairwise_cons.mp hvx with ⟨hvhead, hvx'⟩
    have hunfold : processFiles h cur ((n, b₀) :: fsl) (f :: vxl) =
        Change.mk .Added (cur ++ [n]) .File Digest.NONE ::
          processFiles h cur fsl (f :: vxl) := by
      simp [processFiles, hne, hlt]
    constructor
    · rintro ⟨d, hd⟩
      rw [hunfold, List.mem_cons] at hd
      rcases hd with hhead | hd
      · rw [Change.mk.injEq] at hhead
        have hm : m = n := (path_eq_iff cur m n).mp hhead.2.1
        refine ⟨by simp [hm], ?_⟩
        simp only [List.map_cons, List.mem_cons]
        rintro (hc | hc)
        · rw [hm] at hc
          rw [hc] at hlt
          exact lt_irrefl _ hlt
        · have := hvhead m hc
          rw [hm] at *
          exact lt_irrefl n (lt_trans hlt (hm ▸ this))
      · obtain ⟨hm, hnot⟩ := (ih hfs' hvx).mp ⟨d, hd⟩
        exact ⟨by simp [hm], hnot⟩
    · rintro ⟨hm, hnot⟩
      rcases (mem_map_fst_iff m _).mp hm with ⟨b, hb⟩
      rcases List.mem_cons.mp hb with hhd | htl
      · refine ⟨Digest.NONE, ?_⟩
        rw [hunfold, List.mem_cons]
        refine Or.inl ?_
        rw [Change.mk.injEq, path_eq_iff]
        exact ⟨rfl, congrArg Prod.fst hhd, rfl, rfl⟩
      · obtain ⟨d, hd⟩ := (ih hfs' hvx).mpr ⟨(mem_map_fst_iff m _).mpr ⟨b, htl⟩, hnot⟩
        exact ⟨d, by rw [hunfold, List.mem_cons]; exact Or.inr hd⟩
  | case5 n b₀ fsl f vxl hne hnlt ih =>
    intro hfs hvx
    rcases List.pairwise_cons.mp hvx with ⟨hvhead, hvx'⟩
    rcases List.pairwise_cons.mp hfs with ⟨hfhead, hfs'⟩
    have hfn : f.name < n := by
      rcases lt_trichotomy n f.name with hc | hc | hc
      · exact absurd hc hnlt
      · exact absurd hc hne
      · exact hc
    have hunfold : processFiles h cur ((n, b₀) :: fsl) (f :: vxl) =
        Change.mk .Deleted (cur ++ [f.name]) .File f.blob.contenthash ::
          processFiles h cur ((n, b₀) :: fsl) vxl := by
      simp [processFiles, hne, hnlt]
    constructor
    · rintro ⟨d, hd⟩
      rw [hunfold, List.mem_cons] at hd
      rcases hd with habs | hd
      · rw [Change.mk.injEq] at habs
        exact absurd habs.1 (by decide)
      · obtain ⟨hm, hnot⟩ := (ih hfs hvx').mp ⟨d, hd⟩
        have hnm : f.name < m := by
          rcases (mem_map_fst_iff m _).mp hm with ⟨b, hb⟩
          rcases List.mem_cons.mp hb with hhd | htl
          · have h1 : m = n := congrArg Prod.fst hhd
            rw [h1]
            exact hfn
          · have := hfhead m ((mem_map_fst_iff m _).mpr ⟨b, htl⟩)
            exact lt_trans hfn this
        refine ⟨hm, ?_⟩
        simp only [List.map_cons, List.mem_cons]
        rintro (hc | hc)
        · rw [hc] at hnm
          exact lt_irrefl _ hnm
        · exact hnot hc
    · rintro ⟨hm, hnot⟩
      obtain ⟨d, hd⟩ := (ih hfs hvx').mpr ⟨hm, fun hc => hnot (by simp [hc])⟩
      exact ⟨d, by rw [hunfold, List.mem_cons]; exact Or.inr hd⟩


theorem processFiles_file_type (h : Bytes → Digest) (cur : List String)
    (fsl : List (String × Bytes)) (vxl : List File) :
    ∀ c ∈ processFiles h cur fsl vxl, c.change_type = ChangeType.File := by
  induction fsl, vxl using processFiles.induct h cur with
  | case1 vxl =>
    intro c hc
    simp only [processFiles, List.mem_map] at hc
    rcases hc with ⟨f, -, rfl⟩
    rfl
  | case2 p tail =>
    intro c hc
    simp only [processFiles, List.mem_map] at hc
    rcases hc with ⟨q, -, rfl⟩
    rfl
  | case3 b₀ fsl f vxl ih =>
    intro c hc
    have hunfold : processFiles h cur ((f.name, b₀) :: fsl) (f :: vxl) =
        (if h b₀ ≠ f.blob.contenthash then
          [Change.mk .Modified (cur ++ [f.name]) .File (h b₀)] else []) ++
          processFiles h cur fsl vxl := by
      simp [processFiles]
    rw [hunfold, List.mem_append] at hc
    rcases hc with hc | hc
    · split at hc
      · rw [List.mem_singleton] at hc
        subst hc
        rfl
      · exact absurd hc (List.not_mem_nil c)
    · exact ih c hc
  | case4 n b₀ fsl f vxl hne hlt ih =>
    intro c hc
    have hunfold : processFiles h cur ((n, b₀) :: fsl) (f :: vxl) =
        Change.mk .Added (cur ++ [n]) .File Digest.NONE ::
          processFiles h cur fsl (f :: vxl) := by
      simp [processFiles, hne, hlt]
    rw [hunfold, List.mem_cons] at hc
    rcases hc with rfl | hc
    · rfl
    · exact ih c hc
  | case5 n b₀ fsl f vxl hne hnlt ih =>
    intro c hc
    have hunfold : processFiles h cur ((n, b₀) :: fsl) (f :: vxl) =
        Change.mk .Deleted (cur ++ [f.name]) .File f.blob.contenthash ::
          processFiles h cur ((n, b₀) :: fsl) vxl := by
      simp [processFiles, hne, hnlt]
    rw [hunfold, List.mem_cons] at hc
    rcases hc with rfl | hc
    · rfl
    · exact ih c hc

theorem processFiles_paths (h : Bytes → Digest) (cur : List String)
    (fsl : List (String × Bytes)) (vxl : List File) :
    ∀ c ∈ processFiles h cur fsl vxl, ∃ x, c.path = cur ++ [x] := by
  induction fsl, vxl using processFiles.induct h cur with
  | case1 vxl =>
    intro c hc
    simp only [processFiles, List.mem_map] at hc
    rcases hc with ⟨f, -, rfl⟩
    exact ⟨f.name, rfl⟩
  | case2 p tail =>
    intro c hc
    simp only [processFiles, List.mem_map] at hc
    rcases hc with ⟨q, -, rfl⟩
    exact ⟨q.1, rfl⟩
  | case3 b₀ fsl f vxl ih =>
    intro c hc
    have hunfold : processFiles h cur ((f.name, b₀) :: fsl) (f :: vxl) =
        (if h b₀ ≠ f.blob.contenthash then
          [Change.mk .Modified (cur ++ [f.name]) .File (h b₀)] else []) ++
          processFiles h cur fsl vxl := by
      simp [processFiles]
    rw [hunfold, List.mem_append] at hc
    rcases hc with hc | hc
    · split at hc
      · rw [List.mem_singleton] at hc
        subst hc
        exact ⟨f.name, rfl⟩
      · exact absurd hc (List.not_mem_nil c)
    · exact ih c hc
  | case4 n b₀ fsl f vxl hne hlt ih =>
    intro c hc
    have hunfold : processFiles h cur ((n, b₀) :: fsl) (f :: vxl) =
        Change.mk .Added (cur ++ [n]) .File Digest.NONE ::
          processFiles h cur fsl (f :: vxl) := by
      simp [processFiles, hne, hlt]
    rw [hunfold, List.mem_cons] at hc
    rcases hc with rfl | hc
    · exact ⟨n, rfl⟩
    · exact ih c hc
  | case5 n b₀ fsl f vxl hne hnlt ih =>
    intro c hc
    have hunfold : processFiles h cur ((n, b₀) :: fsl) (f :: vxl) =
        Change.mk .Deleted (cur ++ [f.name]) .File f.blob.contenthash ::
          processFiles h cur ((n, b₀) :: fsl) vxl := by
      simp [processFiles, hne, hnlt]
    rw [hunfold, List.mem_cons] at hc
    rcases hc with rfl | hc
    · exact ⟨f.name, rfl⟩
    · exact ih c hc

theorem statusGo_paths (h : Bytes → Digest) (ts : TreeStore) :
    ∀ (cur : List String) (fsl : List (String × FS)) (vxl : List Folder)
      (fsF : List (String × Bytes)) (vxF : List File) (out : List Change),
    statusGo h ts cur fsl vxl fsF vxF = some out →
    ∀ c ∈ out, ∃ x rest, c.path = cur ++ x :: rest := by
  intro cur fsl vxl fsF vxF
  induction cur, fsl, vxl, fsF, vxF using statusGo.induct h ts with
  | case1 cur vxl fsF vxF =>
    intro out hrun c hc
    simp only [statusGo, Option.some.injEq] at hrun
    subst hrun
    rw [List.mem_append] at hc
    rcases hc with hc | hc
    · rcases List.mem_map.mp hc with ⟨f, -, rfl⟩
      exact ⟨f.name, [], rfl⟩
    · rcases processFiles_paths h cur fsF vxF c hc with ⟨x, hx⟩
      exact ⟨x, [], hx⟩
  | case2 cur head tail fsF vxF =>
    intro out hrun c hc
    simp only [statusGo, Option.some.injEq] at hrun
    subst hrun
    rw [List.mem_append] at hc
    rcases hc with hc | hc
    · rcases List.mem_map.mp hc with ⟨p, -, rfl⟩
      exact ⟨p.1, [], rfl⟩
    · rcases processFiles_paths h cur fsF vxF c hc with ⟨x, hx⟩
      exact ⟨x, [], hx⟩
  | case3 cur sub fsl f vxl fsF vxF ih_inner ih_rest =>
    intro out hrun c hc
    have hunfold : statusGo h ts cur ((f.name, sub) :: fsl) (f :: vxl) fsF vxF = (do
        let t' ← treeGet ts f.hash
        let subC ← statusGo h ts (cur ++ [f.name]) (fsDirs sub) t'.folders (fsFiles sub)
          t'.files
        let rest ← statusGo h ts cur fsl vxl fsF vxF
        pure (subC ++ rest)) := by
      simp [statusGo]
    rw [hunfold] at hrun
    rcases Option.bind_eq_some.mp hrun with ⟨t', ht', h2⟩
    rcases Option.bind_eq_some.mp h2 with ⟨subC, hsub, h3⟩
    rcases Option.bind_eq_some.mp h3 with ⟨rest, hrest, hpure⟩
    obtain rfl : subC ++ rest = out := by simpa using hpure
    rw [List.mem_append] at hc
    rcases hc with hc | hc
    · rcases ih_inner t' subC hsub c hc with ⟨x, r, hx⟩
      refine ⟨f.name, x :: r, ?_⟩
      rw [hx]
      simp
    · exact ih_rest rest hrest c hc
  | case4 cur n sub fsl f vxl fsF vxF hne hlt ih =>
    intro out hrun c hc
    have hunfold : statusGo h ts cur ((n, sub) :: fsl) (f :: vxl) fsF vxF = (do
        let rest ← statusGo h ts cur fsl (f :: vxl) fsF vxF
        pure (Change.mk .Added (cur ++ [n]) .Folder Digest.NONE :: rest)) := by
      simp [statusGo, hne, hlt]
    rw [hunfold] at hrun
    rcases Option.bind_eq_some.mp hrun with ⟨rest, hrest, hpure⟩
    obtain rfl : Change.mk .Added (cur ++ [n]) .Folder Digest.NONE :: rest = out := by
      simpa using hpure
    rcases List.mem_cons.mp hc with rfl | hc
    · exact ⟨n, [], rfl⟩
    · exact ih rest hrest c hc
  | case5 cur n sub fsl f vxl fsF vxF hne hnlt ih =>
    intro out hrun c hc
    have hunfold : statusGo h ts cur ((n, sub) :: fsl) (f :: vxl) fsF vxF = (do
        let rest ← statusGo h ts cur ((n, sub) :: fsl) vxl fsF vxF
        pure (Change.mk .Deleted (cur ++ [f.name]) .Folder f.hash :: rest)) := by
      simp [statusGo, hne, hnlt]
    rw [hunfold] at hrun
    rcases Option.bind_eq_some.mp hrun with ⟨rest, hrest, hpure⟩
    obtain rfl : Change.mk .Deleted (cur ++ [f.name]) .Folder f.hash :: rest = out := by
      simpa using hpure
    rcases List.mem_cons.mp hc with rfl | hc
    · exact ⟨f.name, [], rfl⟩
    · exact ih rest hrest c hc


theorem mem_statusGo_folder_deleted (h : Bytes → Digest) (ts : TreeStore) :
    ∀ (cur : List String) (fsl : List (String × FS)) (vxl : List Folder)
      (fsF : List (String × Bytes)) (vxF : List File) (out : List Change),
    (fsl.map Prod.fst).Pairwise (· < ·) → (vxl.map Folder.name).Pairwise (· < ·) →
    statusGo h ts cur fsl vxl fsF vxF = some out →
    ∀ m d, (Change.mk .Deleted (cur ++ [m]) .Folder d ∈ out ↔
      (∃ f ∈ vxl, f.name = m ∧ f.hash = d) ∧ m ∉ fsl.map Prod.fst) := by
  intro cur fsl vxl fsF vxF
  induction cur, fsl, vxl, fsF, vxF using statusGo.induct h ts with
  | case1 cur vxl fsF vxF =>
    intro out hfs hvx hrun m d
    simp only [statusGo, Option.some.injEq] at hrun
    subst hrun
    rw [List.mem_append]
    constructor
    · rintro (hc | hc)
      · rcases List.mem_map.mp hc with ⟨f, hf, heq⟩
        rw [Change.mk.injEq] at heq
        exact ⟨⟨f, hf, (path_eq_iff cur f.name m).mp heq.2.1, heq.2.2.2⟩, by simp⟩
      · have := processFiles_file_type h cur fsF vxF _ hc
        simp at this
    · rintro ⟨⟨f, hf, hname, hhash⟩, -⟩
      refine Or.inl (List.mem_map.mpr ⟨f, hf, ?_⟩)
      rw [Change.mk.injEq, path_eq_iff]
      exact ⟨rfl, hname, rfl, hhash⟩
  | case2 cur head tail fsF vxF =>
    intro out hfs hvx hrun m d
    simp only [statusGo, Option.some.injEq] at hrun
    subst hrun
    constructor
    · intro hc
      rw [List.mem_append] at hc
      rcases hc with hc | hc
      · rcases List.mem_map.mp hc with ⟨p, -, heq⟩
        rw [Change.mk.injEq] at heq
        exact absurd heq.1 (by decide)
      · have := processFiles_file_type h cur fsF vxF _ hc
        simp at this
    · rintro ⟨⟨f, hf, -⟩, -⟩
      exact absurd hf (List.not_mem_nil f)
  | case3 cur sub fsl f vxl fsF vxF ih_inner ih_rest =>
    intro out hfs hvx hrun m d
    have hunfold : statusGo h ts cur ((f.name, sub) :: fsl) (f :: vxl) fsF vxF = (do
        let t' ← treeGet ts f.hash
        let subC ← statusGo h ts (cur ++ [f.name]) (fsDirs sub) t'.folders (fsFiles sub)
          t'.files
        let rest ← statusGo h ts cur fsl vxl fsF vxF
        pure (subC ++ rest)) := by
      simp [statusGo]
    rw [hunfold] at hrun
    rcases Option.bind_eq_some.mp hrun with ⟨t', ht', h2⟩
    rcases Option.bind_eq_some.mp h2 with ⟨subC, hsub, h3⟩
    rcases Option.bind_eq_some.mp h3 with ⟨rest, hrest, hpure⟩
    obtain rfl : subC ++ rest = out := by simpa using hpure
    rcases List.pairwise_cons.mp hfs with ⟨hfhead, hfs'⟩
    rcases List.pairwise_cons.mp hvx with ⟨hvhead, hvx'⟩
    have hIH := ih_rest rest hfs' hvx' hrest m d
    have hnotsub : Change.mk .Deleted (cur ++ [m]) .Folder d ∉ subC := by
      intro hc
      rcases statusGo_paths h ts (cur ++ [f.name]) _ _ _ _ subC hsub _ hc with ⟨x, r, hpath⟩
      have hpath2 : cur ++ [m] = (cur ++ [f.name]) ++ x :: r := hpath
      rw [List.append_assoc] at hpath2
      have := List.append_cancel_left hpath2
      simp at this
    rw [List.mem_append]
    constructor
    · rintro (hc | hc)
      · exact absurd hc hnotsub
      · obtain ⟨⟨f', hf', hname, hhash⟩, hnot⟩ := hIH.mp hc
        have hne : m ≠ f.name := by
          intro hceq
          have hlt2 : f.name < f'.name := hvhead f'.name (List.mem_map.mpr ⟨f', hf', rfl⟩)
          rw [hname, hceq] at hlt2
          exact lt_irrefl _ hlt2
        refine ⟨⟨f', List.mem_cons_of_mem _ hf', hname, hhash⟩, ?_⟩
        simp only [List.map_cons, List.mem_cons]
        rintro (hceq | hceq)
        · exact hne hceq
        · exact hnot hceq
    · rintro ⟨⟨f', hf', hname, hhash⟩, hnot⟩
      have hne : m ≠ f.name := fun hceq => hnot (by simp [hceq])
      rcases List.mem_cons.mp hf' with rfl | hf''
      · exact absurd hname.symm hne
      · exact Or.inr (hIH.mpr ⟨⟨f', hf'', hname, hhash⟩, fun hceq => hnot (by simp [hceq])⟩)
  | case4 cur n sub fsl f vxl fsF vxF hne hlt ih =>
    intro out hfs hvx hrun m d
    have hunfold : statusGo h ts cur ((n, sub) :: fsl) (f :: vxl) fsF vxF = (do
        let rest ← statusGo h ts cur fsl (f :: vxl) fsF vxF
        pure (Change.mk .Added (cur ++ [n]) .Folder Digest.NONE :: rest)) := by
      simp [statusGo, hne, hlt]
    rw [hunfold] at hrun
    rcases Option.bind_eq_some.mp hrun with ⟨rest, hrest, hpure⟩
    obtain rfl : Change.mk .Added (cur ++ [n]) .Folder Digest.NONE :: rest = out := by
      simpa using hpure
    rcases List.pairwise_cons.mp hfs with ⟨hfhead, hfs'⟩
    rcases List.pairwise_cons.mp hvx with ⟨hvhead, hvx'⟩
    have hIH := ih rest hfs' hvx hrest m d
    rw [List.mem_cons]
    constructor
    · rintro (habs | hc)
      · rw [Change.mk.injEq] at habs
        exact absurd habs.1 (by decide)
      · obtain ⟨⟨f', hf', hname, hhash⟩, hnot⟩ := hIH.mp hc
        have hnm : n < m := by
          have hle : f.name ≤ f'.name := by
            rcases List.mem_cons.mp hf' with rfl | hf''
            · exact le_refl _
            · exact le_of_lt (hvhead f'.name (List.mem_map.mpr ⟨f', hf'', rfl⟩))
          rw [hname] at hle
          exact lt_of_lt_of_le hlt hle
        refine ⟨⟨f', hf', hname, hhash⟩, ?_⟩
        simp only [List.map_cons, List.mem_cons]
        rintro (hceq | hceq)
        · rw [hceq] at hnm
          exact lt_irrefl _ hnm
        · exact hnot hceq
    · rintro ⟨⟨f', hf', hname, hhash⟩, hnot⟩
      exact Or.inr (hIH.mpr ⟨⟨f', hf', hname, hhash⟩, fun hceq => hnot (by simp [hceq])⟩)
  | case5 cur n sub fsl f vxl fsF vxF hne hnlt ih =>
    intro out hfs hvx hrun m d
    have hfn : f.name < n := by
      rcases lt_trichotomy n f.name with hc | hc | hc
      · exact absurd hc hnlt
      · exact absurd hc hne
      · exact hc
    have hunfold : statusGo h ts cur ((n, sub) :: fsl) (f :: vxl) fsF vxF = (do
        let rest ← statusGo h ts cur ((n, sub) :: fsl) vxl fsF vxF
        pure (Change.mk .Deleted (cur ++ [f.name]) .Folder f.hash :: rest)) := by
      simp [statusGo, hne, hnlt]
    rw [hunfold] at hrun
    rcases Option.bind_eq_some.mp hrun with ⟨rest, hrest, hpure⟩
    obtain rfl : Change.mk .Deleted (cur ++ [f.name]) .Folder f.hash :: rest = out := by
      simpa using hpure
    rcases List.pairwise_cons.mp hfs with ⟨hfhead, hfs'⟩
    rcases List.pairwise_cons.mp hvx with ⟨hvhead, hvx'⟩
    have hIH := ih rest hfs hvx' hrest m d
    rw [List.mem_cons]
    constructor
    · rintro (hhead | hc)
      · rw [Change.mk.injEq] at hhead
        have hm : m = f.name := (path_eq_iff cur m f.name).mp hhead.2.1
        refine ⟨⟨f, List.mem_cons_self f vxl, hm.symm, hhead.2.2.2.symm⟩, ?_⟩
        simp only [List.map_cons, List.mem_cons]
        rintro (hceq | hceq)
        · rw [hm] at hceq
          rw [hceq] at hfn
          exact lt_irrefl _ hfn
        · have h2 := hfhead m hceq
          rw [hm] at h2
          exact lt_irrefl _ (lt_trans h2 hfn)
      · obtain ⟨⟨f', hf', hname, hhash⟩, hnot⟩ := hIH.mp hc
        exact ⟨⟨f', List.mem_cons_of_mem _ hf', hname, hhash⟩, hnot⟩
    · rintro ⟨⟨f', hf', hname, hhash⟩, hnot⟩
      rcases List.mem_cons.mp hf' with rfl | hf''
      · refine Or.inl ?_
        rw [Change.mk.injEq, path_eq_iff]
        exact ⟨rfl, hname.symm, rfl, hhash.symm⟩
      · exact Or.inr (hIH.mpr ⟨⟨f', hf'', hname, hhash⟩, hnot⟩)


theorem mem_statusGo_folder_added (h : Bytes → Digest) (ts : TreeStore) :
    ∀ (cur : List String) (fsl : List (String × FS)) (vxl : List Folder)
      (fsF : List (String × Bytes)) (vxF : List File) (out : List Change),
    (fsl.map Prod.fst).Pairwise (· < ·) → (vxl.map Folder.name).Pairwise (· < ·) →
    statusGo h ts cur fsl vxl fsF vxF = some out →
    ∀ m, ((∃ d', Change.mk .Added (cur ++ [m]) .Folder d' ∈ out) ↔
      m ∈ fsl.map Prod.fst ∧ m ∉ vxl.map Folder.name) := by
  intro cur fsl vxl fsF vxF
  induction cur, fsl, vxl, fsF, vxF using statusGo.induct h ts with
  | case1 cur vxl fsF vxF =>
    intro out hfs hvx hrun m
    simp only [statusGo, Option.some.injEq] at hrun
    subst hrun
    constructor
    · rintro ⟨d', hc⟩
      rw [List.mem_append] at hc
      rcases hc with hc | hc
      · rcases List.mem_map.mp hc with ⟨f, -, heq⟩
        rw [Change.mk.injEq] at heq
        exact absurd heq.1 (by decide)
      · have := processFiles_file_type h cur fsF vxF _ hc
        simp at this
    · rintro ⟨hm, -⟩
      simp at hm
  | case2 cur head tail fsF vxF =>
    intro out hfs hvx hrun m
    simp only [statusGo, Option.some.injEq] at hrun
    subst hrun
    constructor
    · rintro ⟨d', hc⟩
      rw [List.mem_append] at hc
      rcases hc with hc | hc
      · rcases List.mem_map.mp hc with ⟨p, hp, heq⟩
        rw [Change.mk.injEq] at heq
        exact ⟨List.mem_map.mpr ⟨p, hp, (path_eq_iff cur p.1 m).mp heq.2.1⟩, by simp⟩
      · have := processFiles_file_type h cur fsF vxF _ hc
        simp at this
    · rintro ⟨hm, -⟩
      rcases (mem_map_fst_iff m _).mp hm with ⟨sub2, hsub2⟩
      exact ⟨Digest.NONE, List.mem_append.mpr (Or.inl (List.mem_map.mpr ⟨(m, sub2), hsub2,
        rfl⟩))⟩
  | case3 cur sub fsl f vxl fsF vxF ih_inner ih_rest =>
    intro out hfs hvx hrun m
    have hunfold : statusGo h ts cur ((f.name, sub) :: fsl) (f :: vxl) fsF vxF = (do
        let t' ← treeGet ts f.hash
        let subC ← statusGo h ts (cur ++ [f.name]) (fsDirs sub) t'.folders (fsFiles sub)
          t'.files
        let rest ← statusGo h ts cur fsl vxl fsF vxF
        pure (subC ++ rest)) := by
      simp [statusGo]
    rw [hunfold] at hrun
    rcases Option.bind_eq_some.mp hrun with ⟨t', ht', h2⟩
    rcases Option.bind_eq_some.mp h2 with ⟨subC, hsub, h3⟩
    rcases Option.bind_eq_some.mp h3 with ⟨rest, hrest, hpure⟩
    obtain rfl : subC ++ rest = out := by simpa using hpure
    rcases List.pairwise_cons.mp hfs with ⟨hfhead, hfs'⟩
    rcases List.pairwise_cons.mp hvx with ⟨hvhead, hvx'⟩
    have hIH := ih_rest rest hfs' hvx' hrest m
    have hnotsub : ∀ d', Change.mk .Added (cur ++ [m]) .Folder d' ∉ subC := by
      intro d' hc
      rcases statusGo_paths h ts (cur ++ [f.name]) _ _ _ _ subC hsub _ hc with ⟨x, r, hpath⟩
      have hpath2 : cur ++ [m] = (cur ++ [f.name]) ++ x :: r := hpath
      rw [List.append_assoc] at hpath2
      have := List.append_cancel_left hpath2
      simp at this
    constructor
    · rintro ⟨d', hc⟩
      rw [List.mem_append] at hc
      rcases hc with hc | hc
      · exact absurd hc (hnotsub d')
      · obtain ⟨hm, hnot⟩ := hIH.mp ⟨d', hc⟩
        have hne : m ≠ f.name := by
          intro hceq
          have h2 := hfhead m hm
          rw [hceq] at h2
          exact lt_irrefl _ h2
        refine ⟨by simp [hm], ?_⟩
        simp only [List.map_cons, List.mem_cons]
        rintro (hceq | hceq)
        · exact hne hceq
        · exact hnot hceq
    · rintro ⟨hm, hnot⟩
      have hne : m ≠ f.name := fun hceq => hnot (by simp [hceq])
      have hm2 : m ∈ fsl.map Prod.fst := by
        rcases (mem_map_fst_iff m _).mp hm with ⟨b, hb⟩
        rcases List.mem_cons.mp hb with hhd | htl
        · exact absurd (congrArg Prod.fst hhd) hne
        · exact (mem_map_fst_iff m _).mpr ⟨b, htl⟩
      obtain ⟨d', hd'⟩ := hIH.mpr ⟨hm2, fun hceq => hnot (by simp [hceq])⟩
      exact ⟨d', List.mem_append.mpr (Or.inr hd')⟩
  | case4 cur n sub fsl f vxl fsF vxF hne hlt ih =>
    intro out hfs hvx hrun m
    have hunfold : statusGo h ts cur ((n, sub) :: fsl) (f :: vxl) fsF vxF = (do
        let rest ← statusGo h ts cur fsl (f :: vxl) fsF vxF
        pure (Change.mk .Added (cur ++ [n]) .Folder Digest.NONE :: rest)) := by
      simp [statusGo, hne, hlt]
    rw [hunfold] at hrun
    rcases Option.bind_eq_some.mp hrun with ⟨rest, hrest, hpure⟩
    obtain rfl : Change.mk .Added (cur ++ [n]) .Folder Digest.NONE :: rest = out := by
      simpa using hpure
    rcases List.pairwise_cons.mp hfs with ⟨hfhead, hfs'⟩
    rcases List.pairwise_cons.mp hvx with ⟨hvhead, hvx'⟩
    have hIH := ih rest hfs' hvx hrest m
    constructor
    · rintro ⟨d', hc⟩
      rcases List.mem_cons.mp hc with hhead | hc
      · rw [Change.mk.injEq] at hhead
        have hm : m = n := (path_eq_iff cur m n).mp hhead.2.1
        refine ⟨by simp [hm], ?_⟩
        simp only [List.map_cons, List.mem_cons]
        rintro (hceq | hceq)
        · rw [hm] at hceq
          rw [hceq] at hlt
          exact lt_irrefl _ hlt
        · have h2 := hvhead m hceq
          rw [hm] at h2
          exact lt_irrefl _ (lt_trans hlt h2)
      · obtain ⟨hm, hnot⟩ := hIH.mp ⟨d', hc⟩
        exact ⟨by simp [hm], hnot⟩
    · rintro ⟨hm, hnot⟩
      rcases (mem_map_fst_iff m _).mp hm with ⟨b, hb⟩
      rcases List.mem_cons.mp hb with hhd | htl
      · refine ⟨Digest.NONE, List.mem_cons.mpr (Or.inl ?_)⟩
        rw [Change.mk.injEq, path_eq_iff]
        exact ⟨rfl, congrArg Prod.fst hhd, rfl, rfl⟩
      · obtain ⟨d', hd'⟩ := hIH.mpr ⟨(mem_map_fst_iff m _).mpr ⟨b, htl⟩, hnot⟩
        exact ⟨d', List.mem_cons.mpr (Or.inr hd')⟩
  | case5 cur n sub fsl f vxl fsF vxF hne hnlt ih =>
    intro out hfs hvx hrun m
    have hfn : f.name < n := by
      rcases lt_trichotomy n f.name with hc | hc | hc
      · exact absurd hc hnlt
      · exact absurd hc hne
      · exact hc
    have hunfold : statusGo h ts cur ((n, sub) :: fsl) (f :: vxl) fsF vxF = (do
        let rest ← statusGo h ts cur ((n, sub) :: fsl) vxl fsF vxF
        pure (Change.mk .Deleted (cur ++ [f.name]) .Folder f.hash :: rest)) := by
      simp [statusGo, hne, hnlt]
    rw [hunfold] at hrun
    rcases Option.bind_eq_some.mp hrun with ⟨rest, hrest, hpure⟩
    obtain rfl : Change.mk .Deleted (cur ++ [f.name]) .Folder f.hash :: rest = out := by
      simpa using hpure
    rcases List.pairwise_cons.mp hfs with ⟨hfhead, hfs'⟩
    rcases List.pairwise_cons.mp hvx with ⟨hvhead, hvx'⟩
    have hIH := ih rest hfs hvx' hrest m
    constructor
    · rintro ⟨d', hc⟩
      rcases List.mem_cons.mp hc with habs | hc
      · rw [Change.mk.injEq] at habs
        exact absurd habs.1 (by decide)
      · obtain ⟨hm, hnot⟩ := hIH.mp ⟨d', hc⟩
        have hfm : f.name < m := by
          rcases (mem_map_fst_iff m _).mp hm with ⟨b, hb⟩
          rcases List.mem_cons.mp hb with hhd | htl
          · have h1 : m = n := congrArg Prod.fst hhd
            rw [h1]
            exact hfn
          · exact lt_trans hfn (hfhead m ((mem_map_fst_iff m _).mpr ⟨b, htl⟩))
        refine ⟨hm, ?_⟩
        simp only [List.map_cons, List.mem_cons]
        rintro (hceq | hceq)
        · rw [hceq] at hfm
          exact lt_irrefl _ hfm
        · exact hnot hceq
    · rintro ⟨hm, hnot⟩
      obtain ⟨d', hd'⟩ := hIH.mpr ⟨hm, fun hceq => hnot (by simp [hceq])⟩
      exact ⟨d', List.mem_cons.mpr (Or.inr hd')⟩

theorem statusGo_equal_splice (h : Bytes → Digest) (ts : TreeStore) (cur : List String)
    (sub : FS) (fsl : List (String × FS)) (f : Folder) (vxl : List Folder)
    (fsF : List (String × Bytes)) (vxF : List File) (t' : Tree) (subC rest : List Change)
    (ht : treeGet ts f.hash = some t')
    (hsub : statusGo h ts (cur ++ [f.name]) (fsDirs sub) t'.folders (fsFiles sub) t'.files =
      some subC)
    (hrest : statusGo h ts cur fsl vxl fsF vxF = some rest) :
    statusGo h ts cur ((f.name, sub) :: fsl) (f :: vxl) fsF vxF = some (subC ++ rest) := by
  have hunfold : statusGo h ts cur ((f.name, sub) :: fsl) (f :: vxl) fsF vxF = (do
      let t2 ← treeGet ts f.hash
      let subC2 ← statusGo h ts (cur ++ [f.name]) (fsDirs sub) t2.folders (fsFiles sub)
        t2.files
      let rest2 ← statusGo h ts cur fsl vxl fsF vxF
      pure (subC2 ++ rest2)) := by
    simp [statusGo]
  rw [hunfold, ht]
  simp [hsub, hrest]


/-- C2: the status walk implements the two-cursor merge rule on both of
each directory's sorted name lists.  Files (`process_files`), for any
sorted duplicate-free lists: a `Deleted` file entry appears exactly for
stored names absent from the filesystem, carrying the stored content hash;
a `Modified` entry appears exactly for names present on both sides whose
hashes differ, carrying the filesystem hash (equal hashes emit nothing);
an `Added` entry appears exactly for filesystem names absent from the
store.  Folders (`traverse_tree`): a `Deleted` folder entry at this
directory appears exactly for stored folder names absent from the
filesystem, carrying the stored folder hash; an `Added` folder entry
appears exactly for filesystem folder names absent from the store; and
equal folder names recurse — the level's output is the full walk of the
subdirectory against the stored subtree, at the extended path, spliced
before the merge of the remaining entries.  In particular, renaming a
committed `a.txt` to `b.txt` (same bytes `b`, content hash `h b`) yields
exactly one `Deleted` entry for `a.txt` and one `Added` entry for `b.txt`,
both of change type `File` and both carrying `h b`. -/
theorem status_two_cursor_spec :
    (∀ (h : Bytes → Digest) (cur : List String) (fsl : List (String × Bytes)) (vxl : List File),
      (fsl.map Prod.fst).Pairwise (· < ·) → (vxl.map File.name).Pairwise (· < ·) →
      ∀ m d,
        (Change.mk .Deleted (cur ++ [m]) .File d ∈ processFiles h cur fsl vxl ↔
          (∃ f ∈ vxl, f.name = m ∧ f.blob.contenthash = d) ∧ m ∉ fsl.map Prod.fst) ∧
        (Change.mk .Modified (cur ++ [m]) .File d ∈ processFiles h cur fsl vxl ↔
          ∃ b, (m, b) ∈ fsl ∧ h b = d ∧
            ∃ f ∈ vxl, f.name = m ∧ h b ≠ f.blob.contenthash) ∧
        ((∃ d', Change.mk .Added (cur ++ [m]) .File d' ∈ processFiles h cur fsl vxl) ↔
          m ∈ fsl.map Prod.fst ∧ m ∉ vxl.map File.name)) ∧
    (∀ (h : Bytes → Digest) (ts : TreeStore) (cur : List String) (fsl : List (String × FS))
        (vxl : List Folder) (fsF : List (String × Bytes)) (vxF : List File)
        (out : List Change),
      (fsl.map Prod.fst).Pairwise (· < ·) → (vxl.map Folder.name).Pairwise (· < ·) →
      statusGo h ts cur fsl vxl fsF vxF = some out →
      ∀ m d,
        (Change.mk .Deleted (cur ++ [m]) .Folder d ∈ out ↔
          (∃ f ∈ vxl, f.name = m ∧ f.hash = d) ∧ m ∉ fsl.map Prod.fst) ∧
        ((∃ d', Change.mk .Added (cur ++ [m]) .Folder d' ∈ out) ↔
          m ∈ fsl.map Prod.fst ∧ m ∉ vxl.map Folder.name)) ∧
    (∀ (h : Bytes → Digest) (ts : TreeStore) (cur : List String) (sub : FS)
        (fsl : List (String × FS)) (f : Folder) (vxl : List Folder)
        (fsF : List (String × Bytes)) (vxF : List File) (t' : Tree) (subC rest : List Change),
      treeGet ts f.hash = some t' →
      statusGo h ts (cur ++ [f.name]) (fsDirs sub) t'.folders (fsFiles sub) t'.files =
        some subC →
      statusGo h ts cur fsl vxl fsF vxF = some rest →
      statusGo h ts cur ((f.name, sub) :: fsl) (f :: vxl) fsF vxF = some (subC ++ rest)) ∧
    (∀ (h : Bytes → Digest) (b : Bytes) (sz thash : Nat),
      get_changed_files h
        [(thash, Tree.mk thash [] [File.mk "a.txt" (Blob.mk (h b) sz)] sz 1 0)]
        (FS.dir [] [("b.txt", b)]) thash =
      some [Change.mk .Deleted ["a.txt"] .File (h b),
        Change.mk .Added ["b.txt"] .File (h b)]) := by
  refine ⟨?_, ?_, ?_, ?_⟩
  · intro h cur fsl vxl hfs hvx m d
    exact ⟨mem_processFiles_deleted h cur fsl vxl m d hfs hvx,
      mem_processFiles_modified h cur fsl vxl m d hfs hvx,
      mem_processFiles_added h cur fsl vxl m hfs hvx⟩
  · intro h ts cur fsl vxl fsF vxF out hfs hvx hrun m d
    exact ⟨mem_statusGo_folder_deleted h ts cur fsl vxl fsF vxF out hfs hvx hrun m d,
      mem_statusGo_folder_added h ts cur fsl vxl fsF vxF out hfs hvx hrun m⟩
  · intro h ts cur sub fsl f vxl fsF vxF t' subC rest ht hsub hrest
    exact statusGo_equal_splice h ts cur sub fsl f vxl fsF vxF t' subC rest ht hsub hrest
  · intro h b sz thash
    have h1 : ¬ (("b.txt" : String) = "a.txt") := by decide
    have h2 : ¬ (("b.txt" : String) < "a.txt") := by
      rw [String.lt_iff_toList_lt]
      decide
    simp [get_changed_files, treeGet, List.find?, statusGo, processFiles, fsDirs, fsFiles,
      sortByName, insertByName, FS.dirsOf, FS.filesOf, notReserved, DATA_FOLDER, TEMP_FOLDER,
      h1, h2]

/-- Witness for `status_two_cursor_spec`: the file merge-rule
characterization applied to the concrete rename state (stored `a.txt`,
on-disk `b.txt`); the folder merge-rule characterization applied to a
directory with on-disk folder `a` and stored folder `b`; the drill-down
rule applied to a shared folder `d` over a concrete tree store; and the
rename scenario itself at a concrete hash function. -/
theorem status_two_cursor_spec_witness :
    ((Change.mk ChangeAction.Deleted ([] ++ ["a.txt"]) ChangeType.File (wHash [104, 105]) ∈
        processFiles wHash [] [("b.txt", [104, 105])]
          [File.mk "a.txt" (Blob.mk (wHash [104, 105]) 2)] ↔
      (∃ f ∈ [File.mk "a.txt" (Blob.mk (wHash [104, 105]) 2)],
          f.name = "a.txt" ∧ f.blob.contenthash = wHash [104, 105]) ∧
        "a.txt" ∉ ([("b.txt", ([104, 105] : Bytes))].map Prod.fst))) ∧
    (Change.mk ChangeAction.Deleted ([] ++ ["b"]) ChangeType.Folder 5 ∈
        [Change.mk .Added ([] ++ ["a"]) .Folder Digest.NONE,
          Change.mk .Deleted ([] ++ ["b"]) .Folder 5] ↔
      (∃ f ∈ [Folder.mk "b" 5], f.name = "b" ∧ f.hash = 5) ∧
        "b" ∉ ([("a", FS.dir [] [])].map Prod.fst)) ∧
    statusGo wHash [(5, Tree.mk 5 [] [] 0 0 0)] []
        [("d", FS.dir [] [])] [Folder.mk "d" 5] [] [] = some ([] ++ []) ∧
    get_changed_files wHash
        [(3, Tree.mk 3 [] [File.mk "a.txt" (Blob.mk (wHash [104, 105]) 2)] 2 1 0)]
        (FS.dir [] [("b.txt", [104, 105])]) 3 =
      some [Change.mk .Deleted ["a.txt"] .File (wHash [104, 105]),
        Change.mk .Added ["b.txt"] .File (wHash [104, 105])] := by
  have hrun1 : statusGo wHash [] [] [("a", FS.dir [] [])] [Folder.mk "b" 5] [] [] =
      some [Change.mk .Added ([] ++ ["a"]) .Folder Digest.NONE,
        Change.mk .Deleted ([] ++ ["b"]) .Folder 5] := by
    have ha : ¬ (("a" : String) = "b") := by decide
    have hb : ("a" : String) < "b" := by
      rw [String.lt_iff_toList_lt]
      decide
    simp [statusGo, processFiles, ha, hb]
  have hsub0 : statusGo wHash [(5, Tree.mk 5 [] [] 0 0 0)]
      ([] ++ [(Folder.mk "d" 5).name]) (fsDirs (FS.dir [] []))
      (Tree.mk 5 [] [] 0 0 0).folders (fsFiles (FS.dir [] []))
      (Tree.mk 5 [] [] 0 0 0).files = some [] := by
    simp [statusGo, processFiles, fsDirs, fsFiles, FS.dirsOf, FS.filesOf, sortByName]
  have hrest0 : statusGo wHash [(5, Tree.mk 5 [] [] 0 0 0)] [] [] [] [] [] = some [] := by
    simp [statusGo, processFiles]
  refine ⟨(status_two_cursor_spec.1 wHash [] [("b.txt", [104, 105])]
      [File.mk "a.txt" (Blob.mk (wHash [104, 105]) 2)] (by decide) (by decide)
      "a.txt" (wHash [104, 105])).1, ?_, ?_,
    status_two_cursor_spec.2.2.2 wHash [104, 105] 2 3⟩
  · exact (status_two_cursor_spec.2.1 wHash [] [] [("a", FS.dir [] [])] [Folder.mk "b" 5]
      [] [] [Change.mk .Added ([] ++ ["a"]) .Folder Digest.NONE,
        Change.mk .Deleted ([] ++ ["b"]) .Folder 5]
      (by simp) (by simp) hrun1 "b" 5).1
  · exact status_two_cursor_spec.2.2.1 wHash [(5, Tree.mk 5 [] [] 0 0 0)] []
      (FS.dir [] []) [] (Folder.mk "d" 5) [] [] [] (Tree.mk 5 [] [] 0 0 0) [] []
      rfl hsub0 hrest0


/-! ## Persist and checkout (`core/tree.rs::persist_tree_parallel`,
`materialize_tree`) -/

/-- `core/tree.rs::TreeStats`. -/
structure TreeStats where
  hash : Digest
  size : Nat
  file_count : Nat
  folder_count : Nat
deriving DecidableEq, Repr

mutual
/-- `core/tree.rs::persist_tree_parallel` (lines 579-671), data flow only
(the tree-store and blob-store writes do not feed back into the returned
stats): list the directory (`parse_entries`: skip reserved names, sort),
recurse into each subdirectory (parallel or sequential — the collected
results are in list order either way), hash each file (`new_file` /
`Blob::from_file` computes the content hash and byte length), accumulate
the aggregate totals, and build the node with `new_tree`. -/
def persistStats (h : Bytes → Digest) (fs : FS) : TreeStats :=
  let folder_results := persistList h (fsDirs fs)
  let files := fsFiles fs
  let vx_files := files.map (fun p => File.mk p.1 (Blob.mk (h p.2) p.2.length))
  let size_files := files.foldl (fun a p => a + p.2.length) 0
  let vx_folders := folder_results.map (fun q => Folder.mk q.1 q.2.hash)
  let total_size := folder_results.foldl (fun a q => a + q.2.size) size_files
  let total_file_count := folder_results.foldl (fun a q => a + q.2.file_count) files.length
  let total_folder_count :=
    folder_results.foldl (fun a q => a + q.2.folder_count) (fsDirs fs).length
  TreeStats.mk
    (new_tree h vx_folders vx_files total_size total_file_count total_folder_count).hash
    total_size total_file_count total_folder_count
termination_by sizeOf fs
decreasing_by
  exact sizeOf_fsDirs_lt fs

/-- The subdirectory recursion of `persist_tree_parallel`, in list order. -/
def persistList (h : Bytes → Digest) : List (String × FS) → List (String × TreeStats)
  | [] => []
  | (nm, sub) :: rest => (nm, persistStats h sub) :: persistList h rest
termination_by l => sizeOf l
decreasing_by
  · simp only [List.cons.sizeOf_spec, Prod.mk.sizeOf_spec]
    omega
  · simp only [List.cons.sizeOf_spec]
    omega
end

/-- `storage/blob.rs::to_file`'s read side: the KV presence check plus the
content-addressed bytes the copy sources from; `none` models
`BlobNotFound`. -/
def blobGet (bs : List (Digest × Bytes)) (d : Digest) : Option Bytes :=
  (bs.find? (fun p => p.1 == d)).map Prod.snd

/-- `core/tree.rs::materialize_folder_without_checks` (lines 916-942):
create the directory, read its tree node, recursively create every
subfolder, then write every file from the blob store.  The source recurses
on store contents with no bound; `fuel` caps the depth (any fuel at least
the stored tree's height behaves identically to the source). -/
def buildFS (h : Bytes → Digest) (ts : TreeStore) (bs : List (Digest × Bytes)) :
    Nat → Digest → Option FS
  | 0, _ => none
  | fuel + 1, d => do
    let t ← treeGet ts d
    let dirs ← t.folders.mapM (fun f =>
      (buildFS h ts bs fuel f.hash).map (fun sub => (f.name, sub)))
    let files ← t.files.mapM (fun f =>
      (blobGet bs f.blob.contenthash).map (fun bts => (f.name, bts)))
    pure (FS.dir dirs files)

/-- `core/tree.rs::materialize_files` (lines 813-912): the file-list
two-cursor merge of checkout.  Equal names keep the on-disk bytes when the
hashes match and overwrite from the blob store when they differ; a
filesystem-only file is removed (`remove_file`); a store-only file is
written from the blob store.  Returns the directory's resulting file list;
`none` models a missing blob. -/
def matFiles (h : Bytes → Digest) (bs : List (Digest × Bytes)) :
    List (String × Bytes) → List File → Option (List (String × Bytes))
  | [], vxl => vxl.mapM (fun f =>
      (blobGet bs f.blob.contenthash).map (fun bts => (f.name, bts)))
  | _ :: _, [] => some []
  | (n, b) :: fsl, f :: vxl =>
    if n = f.name then
      if h b ≠ f.blob.contenthash then do
        let bts ← blobGet bs f.blob.contenthash
        let rest ← matFiles h bs fsl vxl
        pure ((n, bts) :: rest)
      else do
        let rest ← matFiles h bs fsl vxl
        pure ((n, b) :: rest)
    else if n < f.name then
      matFiles h bs fsl (f :: vxl)
    else do
      let bts ← blobGet bs f.blob.contenthash
      let rest ← matFiles h bs ((n, b) :: fsl) vxl
      pure ((f.name, bts) :: rest)
termination_by fsl vxl => fsl.length + vxl.length

/-- `core/tree.rs::materialize_tree` (lines 698-811), one stack level at a
time: the folder-list two-cursor merge of checkout.  Equal names drill
down; a filesystem-only folder is removed (`remove_dir_all`); a store-only
folder is materialized by `materialize_folder_without_checks` (whose
`create_dir_all` fails when a file of the same name exists in the current
directory — `fnames` are the directory's file names); at exhaustion the
remaining folders of the other side are handled and the level's files are
merged by `materialize_files`.  Returns the resulting (folders, files) of
the level. -/
def matGo (h : Bytes → Digest) (ts : TreeStore) (bs : List (Digest × Bytes)) (fuel : Nat) :
    List (String × FS) → List Folder → List (String × Bytes) → List File → List String →
    Option (List (String × FS) × List (String × Bytes))
  | [], vxl, fsF, vxF, fnames => do
    let newSubs ← vxl.mapM (fun f =>
      if f.name ∈ fnames then none
      else (buildFS h ts bs fuel f.hash).map (fun sub => (f.name, sub)))
    let newFiles ← matFiles h bs fsF vxF
    pure (newSubs, newFiles)
  | _ :: _, [], fsF, vxF, _ => do
    let newFiles ← matFiles h bs fsF vxF
    pure ([], newFiles)
  | (n, sub) :: fsl, f :: vxl, fsF, vxF, fnames =>
    if n = f.name then do
      let t' ← treeGet ts f.hash
      let res ← matGo h ts bs fuel (fsDirs sub) t'.folders (fsFiles sub) t'.files
        (sub.filesOf.map Prod.fst)
      let newSub := FS.dir
        (res.1 ++ sub.dirsOf.filter (fun p => !(notReserved p.1)))
        (res.2 ++ sub.filesOf.filter (fun p => !(notReserved p.1)))
      let rest ← matGo h ts bs fuel fsl vxl fsF vxF fnames
      pure ((n, newSub) :: rest.1, rest.2)
    else if n < f.name then
      matGo h ts bs fuel fsl (f :: vxl) fsF vxF fnames
    else
      if f.name ∈ fnames then none
      else do
        let bsub ← buildFS h ts bs fuel f.hash
        let rest ← matGo h ts bs fuel ((n, sub) :: fsl) vxl fsF vxF fnames
        pure ((f.name, bsub) :: rest.1, rest.2)
termination_by fsl vxl fsF vxF fnames => (sizeOf fsl, vxl.length)
decreasing_by
· apply Prod.Lex.left
  have := sizeOf_fsDirs_lt sub
  simp only [List.cons.sizeOf_spec, Prod.mk.sizeOf_spec]
  omega
· apply Prod.Lex.left
  simp only [List.cons.sizeOf_spec, Prod.mk.sizeOf_spec]
  omega
· apply Prod.Lex.left
  simp only [List.cons.sizeOf_spec, Prod.mk.sizeOf_spec]
  omega
· apply Prod.Lex.right
  simp only [List.length_cons]
  omega

/-- `core/tree.rs::perform_checkout` (lines 675-695) restricted to the tree
work: read the root tree by digest and materialize it over the live
directory.  The entries named `.vx`/`.vxtemp` are invisible to the walk
(`parse_entries` skips them) and stay in place. -/
def checkoutTree (h : Bytes → Digest) (ts : TreeStore) (bs : List (Digest × Bytes))
    (fuel : Nat) (fs : FS) (d : Digest) : Option FS := do
  let root ← treeGet ts d
  let res ← matGo h ts bs fuel (fsDirs fs) root.folders (fsFiles fs) root.files
    (fs.filesOf.map Prod.fst)
  pure (FS.dir
    (res.1 ++ fs.dirsOf.filter (fun p => !(notReserved p.1)))
    (res.2 ++ fs.filesOf.filter (fun p => !(notReserved p.1))))

/-- What `persist_tree` guarantees about every tree node and blob it wrote:
the node is stored under its own hash, its hash is the digest of its
entries, both entry lists are strictly sorted by name with no reserved
names, every subtree is likewise captured, and every file's blob resolves
to bytes with that content hash.  The natural-number index bounds the tree
height. -/
inductive Captured (h : Bytes → Digest) (ts : TreeStore) (bs : List (Digest × Bytes)) :
    Nat → Digest → Prop where
  | node (n : Nat) (d : Digest) (t : Tree) :
      treeGet ts d = some t →
      t.hash = d →
      t.hash = h (treeHashInput t.folders t.files) →
      (t.folders.map Folder.name).Pairwise (· < ·) →
      (t.files.map File.name).Pairwise (· < ·) →
      (∀ f ∈ t.folders, notReserved f.name = true) →
      (∀ f ∈ t.files, notReserved f.name = true) →
      (∀ f ∈ t.folders, Captured h ts bs n f.hash) →
      (∀ f ∈ t.files, ∃ bts, blobGet bs f.blob.contenthash = some bts ∧
        h bts = f.blob.contenthash) →
      Captured h ts bs (n + 1) d


theorem mapM_option_forall₂ {α β} (f : α → Option β) (l : List α) (out : List β)
    (hm : l.mapM f = some out) : List.Forall₂ (fun a b => f a = some b) l out := by
  induction l generalizing out with
  | nil =>
    simp only [List.mapM_nil, pure, Option.some.injEq] at hm
    rw [← hm]
    exact List.Forall₂.nil
  | cons a l ih =>
    rw [List.mapM_cons] at hm
    cases hfa : f a with
    | none => rw [hfa] at hm; simp at hm
    | some b =>
      rw [hfa] at hm
      cases hml : l.mapM f with
      | none => rw [hml] at hm; simp at hm
      | some bs =>
        rw [hml] at hm
        simp at hm
        rw [← hm]
        exact List.Forall₂.cons hfa (ih bs hml)

theorem map_eq_of_forall₂ {α β γ} {R : α → β → Prop} {l : List α} {out : List β}
    (hf : List.Forall₂ R l out) (g : β → γ) (e : α → γ)
    (hge : ∀ a ∈ l, ∀ b, R a b → g b = e a) : out.map g = l.map e := by
  induction hf with
  | nil => rfl
  | cons hR hrest ih =>
    rename_i a b l' out'
    simp only [List.map_cons]
    rw [hge a (List.mem_cons_self _ _) b hR,
      ih (fun a' ha' b' hR' => hge a' (List.mem_cons_of_mem _ ha') b' hR')]

theorem sortByName_eq_self {α} (key : α → String) (l : List α)
    (hs : l.Pairwise (fun a b => key a ≤ key b)) : sortByName key l = l := by
  induction l with
  | nil => rfl
  | cons x xs ih =>
    rcases List.pairwise_cons.mp hs with ⟨hx, hxs⟩
    simp only [sortByName, List.foldr_cons]
    rw [show List.foldr (insertByName key) [] xs = sortByName key xs from rfl, ih hxs]
    cases xs with
    | nil => rfl
    | cons y ys =>
      simp only [insertByName]
      rw [if_pos (hx y (List.mem_cons_self y ys))]

theorem persistList_eq_map (h : Bytes → Digest) (l : List (String × FS)) :
    persistList h l = l.map (fun p => (p.1, persistStats h p.2)) := by
  induction l with
  | nil => simp only [persistList, List.map_nil]
  | cons p rest ih =>
    cases p
    simp only [persistList, ih, List.map_cons]

theorem persistStats_hash (h : Bytes → Digest) (fs : FS) :
    (persistStats h fs).hash = h (treeHashInput
      ((persistList h (fsDirs fs)).map (fun q => Folder.mk q.1 q.2.hash))
      ((fsFiles fs).map (fun p => File.mk p.1 (Blob.mk (h p.2) p.2.length)))) := by
  simp only [persistStats]
  rw [(new_tree_hash_spec h _ _ _ _ _ 0 0 0).1]

theorem treeHashInput_congr (fol₁ fol₂ : List Folder) (fil₁ fil₂ : List File)
    (hfol : fol₁.map (fun f => (f.name, f.hash)) = fol₂.map (fun f => (f.name, f.hash)))
    (hfil : fil₁.map (fun f => (f.name, f.blob.contenthash)) =
      fil₂.map (fun f => (f.name, f.blob.contenthash))) :
    treeHashInput fol₁ fil₁ = treeHashInput fol₂ fil₂ := by
  unfold treeHashInput
  have h1 : ∀ (fol : List Folder), fol.map (fun f => strBytes f.name ++ beBytes16 f.hash) =
      (fol.map (fun f => (f.name, f.hash))).map (fun q => strBytes q.1 ++ beBytes16 q.2) := by
    intro fol
    rw [List.map_map]
    rfl
  have h2 : ∀ (fil : List File),
      fil.map (fun f => strBytes f.name ++ beBytes16 f.blob.contenthash) =
      (fil.map (fun f => (f.name, f.blob.contenthash))).map
        (fun q => strBytes q.1 ++ beBytes16 q.2) := by
    intro fil
    rw [List.map_map]
    rfl
  rw [h1, h2, hfol, hfil, ← h1, ← h2]

/-- Re-persisting a directory whose (non-reserved) entries mirror a
captured tree node's entries reproduces the node's hash: the extra
reserved-named entries are skipped by `parse_entries`, the lists are
already sorted, and blob sizes and aggregate totals do not enter the
hash. -/
theorem assembled_hash (h : Bytes → Digest) (t : Tree)
    (nd : List (String × FS)) (nf : List (String × Bytes))
    (rD : List (String × FS)) (rF : List (String × Bytes))
    (hndproj : nd.map (fun p => (p.1, (persistStats h p.2).hash)) =
      t.folders.map (fun f => (f.name, f.hash)))
    (hnfproj : nf.map (fun p => (p.1, h p.2)) =
      t.files.map (fun f => (f.name, f.blob.contenthash)))
    (hfsort : (t.folders.map Folder.name).Pairwise (· < ·))
    (hfisort : (t.files.map File.name).Pairwise (· < ·))
    (hfres : ∀ f ∈ t.folders, notReserved f.name = true)
    (hfires : ∀ f ∈ t.files, notReserved f.name = true)
    (hrD : ∀ p ∈ rD, notReserved p.1 = false)
    (hrF : ∀ p ∈ rF, notReserved p.1 = false)
    (hth : t.hash = h (treeHashInput t.folders t.files)) :
    (persistStats h (FS.dir (nd ++ rD) (nf ++ rF))).hash = t.hash := by
  have hnd_names : nd.map Prod.fst = t.folders.map Folder.name := by
    have := congrArg (List.map Prod.fst) hndproj
    simpa [List.map_map, Function.comp] using this
  have hnf_names : nf.map Prod.fst = t.files.map File.name := by
    have := congrArg (List.map Prod.fst) hnfproj
    simpa [List.map_map, Function.comp] using this
  have hdirs : fsDirs (FS.dir (nd ++ rD) (nf ++ rF)) = nd := by
    simp only [fsDirs, FS.dirsOf]
    rw [List.filter_append]
    have h1 : nd.filter (fun p => notReserved p.1) = nd := by
      rw [List.filter_eq_self]
      intro p hp
      have hpn : p.1 ∈ t.folders.map Folder.name :=
        hnd_names ▸ List.mem_map.mpr ⟨p, hp, rfl⟩
      rcases List.mem_map.mp hpn with ⟨f, hf, hfn⟩
      rw [← hfn]
      exact hfres f hf
    have h2 : rD.filter (fun p => notReserved p.1) = [] := by
      rw [List.filter_eq_nil_iff]
      intro p hp
      simp [hrD p hp]
    rw [h1, h2, List.append_nil]
    apply sortByName_eq_self
    have hpw : (nd.map Prod.fst).Pairwise (· < ·) := hnd_names ▸ hfsort
    exact (List.pairwise_map.mp hpw).imp (fun hab => le_of_lt hab)
  have hfiles : fsFiles (FS.dir (nd ++ rD) (nf ++ rF)) = nf := by
    simp only [fsFiles, FS.filesOf]
    rw [List.filter_append]
    have h1 : nf.filter (fun p => notReserved p.1) = nf := by
      rw [List.filter_eq_self]
      intro p hp
      have hpn : p.1 ∈ t.files.map File.name :=
        hnf_names ▸ List.mem_map.mpr ⟨p, hp, rfl⟩
      rcases List.mem_map.mp hpn with ⟨f, hf, hfn⟩
      rw [← hfn]
      exact hfires f hf
    have h2 : rF.filter (fun p => notReserved p.1) = [] := by
      rw [List.filter_eq_nil_iff]
      intro p hp
      simp [hrF p hp]
    rw [h1, h2, List.append_nil]
    apply sortByName_eq_self
    have hpw : (nf.map Prod.fst).Pairwise (· < ·) := hnf_names ▸ hfisort
    exact (List.pairwise_map.mp hpw).imp (fun hab => le_of_lt hab)
  rw [persistStats_hash, hdirs, hfiles, hth]
  refine congrArg h (treeHashInput_congr _ _ _ _ ?_ ?_)
  · rw [persistList_eq_map, List.map_map, List.map_map]
    simpa [Function.comp] using hndproj
  · rw [List.map_map]
    simpa [Function.comp] using hnfproj


/-- A tree materialized from scratch by
`materialize_folder_without_checks` re-persists to its own digest. -/
theorem buildFS_hash (h : Bytes → Digest) (ts : TreeStore) (bs : List (Digest × Bytes))
    {n : Nat} {d : Digest} (hcap : Captured h ts bs n d) :
    ∀ fuel fsb, buildFS h ts bs fuel d = some fsb → (persistStats h fsb).hash = d := by
  induction hcap with
  | node n d t hget hhd hhin hfsort hfisort hfres hfires hchild hblob ihchild =>
    intro fuel fsb hbuild
    cases fuel with
    | zero => simp [buildFS] at hbuild
    | succ fuel =>
      simp only [buildFS, hget, Option.bind_eq_bind, Option.some_bind] at hbuild
      rcases Option.bind_eq_some.mp hbuild with ⟨dirs, hdirs, hbuild2⟩
      rcases Option.bind_eq_some.mp hbuild2 with ⟨files, hfiles, hpure⟩
      obtain rfl : FS.dir dirs files = fsb := by
        simpa using hpure
      have hdirsF := mapM_option_forall₂ _ _ _ hdirs
      have hfilesF := mapM_option_forall₂ _ _ _ hfiles
      have hndproj : dirs.map (fun p => (p.1, (persistStats h p.2).hash)) =
          t.folders.map (fun f => (f.name, f.hash)) := by
        refine map_eq_of_forall₂ hdirsF _ _ ?_
        intro f hf p hfp
        rcases Option.map_eq_some'.mp hfp with ⟨sub, hsub, hp⟩
        rw [← hp]
        have := ihchild f hf fuel sub hsub
        simp [this]
      have hnfproj : files.map (fun p => (p.1, h p.2)) =
          t.files.map (fun f => (f.name, f.blob.contenthash)) := by
        refine map_eq_of_forall₂ hfilesF _ _ ?_
        intro f hf p hfp
        rcases Option.map_eq_some'.mp hfp with ⟨bts, hbts, hp⟩
        rw [← hp]
        rcases hblob f hf with ⟨bts', hbts', hh'⟩
        obtain rfl : bts' = bts := by
          rw [hbts'] at hbts
          exact Option.some.inj hbts
        simp [hh']
      have := assembled_hash h t dirs files [] []
        hndproj hnfproj hfsort hfisort hfres hfires (by simp) (by simp) hhin
      rw [← hhd]
      simpa using this

/-- The checkout file merge leaves a file list whose names and content
hashes are exactly the stored file entries'. -/
theorem matFiles_spec (h : Bytes → Digest) (bs : List (Digest × Bytes)) :
    ∀ fsF vxF out,
    (∀ f ∈ vxF, ∃ bts, blobGet bs f.blob.contenthash = some bts ∧
      h bts = f.blob.contenthash) →
    matFiles h bs fsF vxF = some out →
    out.map (fun p => (p.1, h p.2)) = vxF.map (fun f => (f.name, f.blob.contenthash)) := by
  intro fsF vxF
  induction fsF, vxF using matFiles.induct h bs with
  | case1 vxl =>
    intro out hco hrun
    simp only [matFiles] at hrun
    have hF := mapM_option_forall₂ _ _ _ hrun
    refine map_eq_of_forall₂ hF _ _ ?_
    intro f hf p hfp
    rcases Option.map_eq_some'.mp hfp with ⟨bts, hbts, hp⟩
    rw [← hp]
    rcases hco f hf with ⟨bts', hbts', hh'⟩
    obtain rfl : bts' = bts := by
      rw [hbts'] at hbts
      exact Option.some.inj hbts
    simp [hh']
  | case2 p tail =>
    intro out hco hrun
    simp only [matFiles, Option.some.injEq] at hrun
    rw [← hrun]
    rfl
  | case3 b fsl f vxl hne ih =>
    intro out hco hrun
    have hunfold : matFiles h bs ((f.name, b) :: fsl) (f :: vxl) = (do
        let bts ← blobGet bs f.blob.contenthash
        let rest ← matFiles h bs fsl vxl
        pure ((f.name, bts) :: rest)) := by
      simp [matFiles, hne]
    rw [hunfold] at hrun
    rcases Option.bind_eq_some.mp hrun with ⟨bts, hbts, hrun2⟩
    rcases Option.bind_eq_some.mp hrun2 with ⟨rest, hrest, hpure⟩
    obtain rfl : (f.name, bts) :: rest = out := by simpa using hpure
    rcases hco f (List.mem_cons_self _ _) with ⟨bts', hbts', hh'⟩
    obtain rfl : bts' = bts := by
      rw [hbts'] at hbts
      exact Option.some.inj hbts
    simp only [List.map_cons]
    rw [ih rest (fun g hg => hco g (List.mem_cons_of_mem _ hg)) hrest]
    simp [hh']
  | case4 b fsl f vxl hne ih =>
    intro out hco hrun
    have hb : h b = f.blob.contenthash := not_not.mp hne
    have hunfold : matFiles h bs ((f.name, b) :: fsl) (f :: vxl) = (do
        let rest ← matFiles h bs fsl vxl
        pure ((f.name, b) :: rest)) := by
      simp [matFiles, hb]
    rw [hunfold] at hrun
    rcases Option.bind_eq_some.mp hrun with ⟨rest, hrest, hpure⟩
    obtain rfl : (f.name, b) :: rest = out := by simpa using hpure
    simp only [List.map_cons]
    rw [ih rest (fun g hg => hco g (List.mem_cons_of_mem _ hg)) hrest]
    simp [hb]
  | case5 n b fsl f vxl hne hlt ih =>
    intro out hco hrun
    have hunfold : matFiles h bs ((n, b) :: fsl) (f :: vxl) =
        matFiles h bs fsl (f :: vxl) := by
      simp [matFiles, hne, hlt]
    rw [hunfold] at hrun
    exact ih out hco hrun
  | case6 n b fsl f vxl hne hnlt ih =>
    intro out hco hrun
    have hunfold : matFiles h bs ((n, b) :: fsl) (f :: vxl) = (do
        let bts ← blobGet bs f.blob.contenthash
        let rest ← matFiles h bs ((n, b) :: fsl) vxl
        pure ((f.name, bts) :: rest)) := by
      simp [matFiles, hne, hnlt]
    rw [hunfold] at hrun
    rcases Option.bind_eq_some.mp hrun with ⟨bts, hbts, hrun2⟩
    rcases Option.bind_eq_some.mp hrun2 with ⟨rest, hrest, hpure⟩
    obtain rfl : (f.name, bts) :: rest = out := by simpa using hpure
    rcases hco f (List.mem_cons_self _ _) with ⟨bts', hbts', hh'⟩
    obtain rfl : bts' = bts := by
      rw [hbts'] at hbts
      exact Option.some.inj hbts
    simp only [List.map_cons]
    rw [ih rest (fun g hg => hco g (List.mem_cons_of_mem _ hg)) hrest]
    simp [hh']

/-- The checkout folder merge leaves a folder list whose names and
re-persisted hashes are exactly the stored folder entries', and file list
likewise. -/
theorem matGo_spec (h : Bytes → Digest) (ts : TreeStore) (bs : List (Digest × Bytes))
    (fuel : Nat) :
    ∀ fsl vxl fsF vxF fnames out,
    (∀ f ∈ vxl, ∃ n, Captured h ts bs n f.hash) →
    (∀ f ∈ vxF, ∃ bts, blobGet bs f.blob.contenthash = some bts ∧
      h bts = f.blob.contenthash) →
    matGo h ts bs fuel fsl vxl fsF vxF fnames = some out →
    (out.1.map (fun p => (p.1, (persistStats h p.2).hash)) =
      vxl.map (fun f => (f.name, f.hash))) ∧
    (out.2.map (fun p => (p.1, h p.2)) =
      vxF.map (fun f => (f.name, f.blob.contenthash))) := by
  intro fsl vxl fsF vxF fnames
  induction fsl, vxl, fsF, vxF, fnames using matGo.induct h ts bs fuel with
  | case1 vxl fsF vxF fnames =>
    intro out hcapd hcof hrun
    simp only [matGo] at hrun
    rcases Option.bind_eq_some.mp hrun with ⟨newSubs, hsubs, hrun2⟩
    rcases Option.bind_eq_some.mp hrun2 with ⟨newFiles, hfiles, hpure⟩
    obtain rfl : (newSubs, newFiles) = out := by simpa using hpure
    constructor
    · have hF := mapM_option_forall₂ _ _ _ hsubs
      refine map_eq_of_forall₂ hF _ _ ?_
      intro f hf p hfp
      by_cases hmem : f.name ∈ fnames
      · rw [if_pos hmem] at hfp
        exact absurd hfp (by simp)
      · rw [if_neg hmem] at hfp
        rcases Option.map_eq_some'.mp hfp with ⟨sub, hsub, hp⟩
        rw [← hp]
        rcases hcapd f hf with ⟨n, hc⟩
        have := buildFS_hash h ts bs hc fuel sub hsub
        simp [this]
    · exact matFiles_spec h bs fsF vxF newFiles hcof hfiles
  | case2 head tail fsF vxF x =>
    intro out hcapd hcof hrun
    simp only [matGo] at hrun
    rcases Option.bind_eq_some.mp hrun with ⟨newFiles, hfiles, hpure⟩
    obtain rfl : (([] : List (String × FS)), newFiles) = out := by simpa using hpure
    exact ⟨rfl, matFiles_spec h bs fsF vxF newFiles hcof hfiles⟩
  | case3 sub fsl f vxl fsF vxF fnames ih_inner ih_rest =>
    intro out hcapd hcof hrun
    have hunfold : matGo h ts bs fuel ((f.name, sub) :: fsl) (f :: vxl) fsF vxF fnames = (do
        let t' ← treeGet ts f.hash
        let res ← matGo h ts bs fuel (fsDirs sub) t'.folders (fsFiles sub) t'.files
          (sub.filesOf.map Prod.fst)
        let rest ← matGo h ts bs fuel fsl vxl fsF vxF fnames
        pure ((f.name, FS.dir
          (res.1 ++ sub.dirsOf.filter (fun p => !(notReserved p.1)))
          (res.2 ++ sub.filesOf.filter (fun p => !(notReserved p.1)))) :: rest.1,
          rest.2)) := by
      simp [matGo]
    rw [hunfold] at hrun
    rcases Option.bind_eq_some.mp hrun with ⟨t', ht', hrun2⟩
    rcases Option.bind_eq_some.mp hrun2 with ⟨res, hres, hrun3⟩
    rcases Option.bind_eq_some.mp hrun3 with ⟨rest, hrest, hpure⟩
    obtain rfl : ((f.name, FS.dir
        (res.1 ++ sub.dirsOf.filter (fun p => !(notReserved p.1)))
        (res.2 ++ sub.filesOf.filter (fun p => !(notReserved p.1)))) :: rest.1,
        rest.2) = out := by simpa using hpure
    rcases hcapd f (List.mem_cons_self _ _) with ⟨n, hc⟩
    rcases hc with ⟨n0, d0, t, hget, hhd, hhin, hfsort, hfisort, hfres, hfires,
      hchild, hblob⟩
    obtain rfl : t = t' := by
      rw [hget] at ht'
      exact Option.some.inj ht'
    obtain ⟨hd1, hd2⟩ := ih_inner t res
      (fun g hg => ⟨n0, hchild g hg⟩) hblob hres
    have hassem : (persistStats h (FS.dir
        (res.1 ++ sub.dirsOf.filter (fun p => !(notReserved p.1)))
        (res.2 ++ sub.filesOf.filter (fun p => !(notReserved p.1))))).hash = f.hash := by
      rw [← hhd]
      refine assembled_hash h t res.1 res.2 _ _ hd1 hd2 hfsort hfisort hfres hfires ?_ ?_ hhin
      · intro p hp
        have := (List.mem_filter.mp hp).2
        simpa using this
      · intro p hp
        have := (List.mem_filter.mp hp).2
        simpa using this
    obtain ⟨he1, he2⟩ := ih_rest rest
      (fun g hg => hcapd g (List.mem_cons_of_mem _ hg)) hcof hrest
    constructor
    · simp only [List.map_cons, hassem, he1]
    · exact he2
  | case4 n sub fsl f vxl fsF vxF fnames hne hlt ih =>
    intro out hcapd hcof hrun
    have hunfold : matGo h ts bs fuel ((n, sub) :: fsl) (f :: vxl) fsF vxF fnames =
        matGo h ts bs fuel fsl (f :: vxl) fsF vxF fnames := by
      simp [matGo, hne, hlt]
    rw [hunfold] at hrun
    exact ih out hcapd hcof hrun
  | case5 n sub fsl f vxl fsF vxF fnames hne hnlt hmem =>
    intro out hcapd hcof hrun
    have hunfold : matGo h ts bs fuel ((n, sub) :: fsl) (f :: vxl) fsF vxF fnames = none := by
      simp [matGo, hne, hnlt, hmem]
    rw [hunfold] at hrun
    exact absurd hrun (by simp)
  | case6 n sub fsl f vxl fsF vxF fnames hne hnlt hnmem ih =>
    intro out hcapd hcof hrun
    have hunfold : matGo h ts bs fuel ((n, sub) :: fsl) (f :: vxl) fsF vxF fnames = (do
        let bsub ← buildFS h ts bs fuel f.hash
        let rest ← matGo h ts bs fuel ((n, sub) :: fsl) vxl fsF vxF fnames
        pure ((f.name, bsub) :: rest.1, rest.2)) := by
      simp [matGo, hne, hnlt, hnmem]
    rw [hunfold] at hrun
    rcases Option.bind_eq_some.mp hrun with ⟨bsub, hbsub, hrun2⟩
    rcases Option.bind_eq_some.mp hrun2 with ⟨rest, hrest, hpure⟩
    obtain rfl : ((f.name, bsub) :: rest.1, rest.2) = out := by simpa using hpure
    rcases hcapd f (List.mem_cons_self _ _) with ⟨nn, hc⟩
    have hbh := buildFS_hash h ts bs hc fuel bsub hbsub
    obtain ⟨he1, he2⟩ := ih rest
      (fun g hg => hcapd g (List.mem_cons_of_mem _ hg)) hcof hrest
    constructor
    · simp only [List.map_cons, hbh, he1]
    · exact he2

/-- C1: checkout followed by re-persist reproduces the captured digest.
For any tree digest previously captured by `persist_tree` (all its tree
nodes and blobs present and coherent in the stores, `Captured`), running
checkout of that digest over any starting filesystem state under the
checkout path, when it completes, yields a filesystem whose `persist_tree`
root digest equals the captured digest. -/
theorem checkout_persist_roundtrip (h : Bytes → Digest) (ts : TreeStore)
    (bs : List (Digest × Bytes)) (n : Nat) (d : Digest) (fuel : Nat) (fs fs' : FS)
    (hcap : Captured h ts bs n d)
    (hrun : checkoutTree h ts bs fuel fs d = some fs') :
    (persistStats h fs').hash = d := by
  rcases hcap with ⟨n0, d0, t, hget, hhd, hhin, hfsort, hfisort, hfres, hfires,
    hchild, hblob⟩
  simp only [checkoutTree, hget, Option.bind_eq_bind, Option.some_bind] at hrun
  rcases Option.bind_eq_some.mp hrun with ⟨res, hres, hpure⟩
  obtain rfl : FS.dir
      (res.1 ++ fs.dirsOf.filter (fun p => !(notReserved p.1)))
      (res.2 ++ fs.filesOf.filter (fun p => !(notReserved p.1))) = fs' := by
    simpa using hpure
  obtain ⟨hd1, hd2⟩ := matGo_spec h ts bs fuel (fsDirs fs) t.folders (fsFiles fs) t.files
    (fs.filesOf.map Prod.fst) res (fun g hg => ⟨n0, hchild g hg⟩) hblob hres
  rw [← hhd]
  refine assembled_hash h t res.1 res.2 _ _ hd1 hd2 hfsort hfisort hfres hfires ?_ ?_ hhin
  · intro p hp
    have := (List.mem_filter.mp hp).2
    simpa using this
  · intro p hp
    have := (List.mem_filter.mp hp).2
    simpa using this


def wHashC1 : Bytes → Digest := fun _ => 0

def wTreeC1 : Tree :=
  Tree.mk 0 [] [File.mk "b.txt" (Blob.mk 0 1)] 1 1 0

def wTSC1 : TreeStore := [(0, wTreeC1)]

def wBSC1 : List (Digest × Bytes) := [(0, [7])]

def wFSC1 : FS := FS.dir [] [("a.txt", [1])]

theorem checkout_persist_roundtrip_witness :
    checkoutTree wHashC1 wTSC1 wBSC1 1 wFSC1 0 = some (FS.dir [] [("b.txt", [7])]) ∧
    (persistStats wHashC1 (FS.dir [] [("b.txt", [7])])).hash = 0 := by
  have hcap : Captured wHashC1 wTSC1 wBSC1 1 0 := by
    refine Captured.node 0 0 wTreeC1 rfl rfl rfl ?_ ?_ ?_ ?_ ?_ ?_
    · simp [wTreeC1]
    · simp [wTreeC1]
    · intro f hf
      simp [wTreeC1] at hf
    · intro f hf
      simp only [wTreeC1, List.mem_singleton] at hf
      subst hf
      decide
    · intro f hf
      simp [wTreeC1] at hf
    · intro f hf
      simp only [wTreeC1, List.mem_singleton] at hf
      subst hf
      exact ⟨[7], rfl, rfl⟩
  have hrun : checkoutTree wHashC1 wTSC1 wBSC1 1 wFSC1 0 =
      some (FS.dir [] [("b.txt", [7])]) := by
    simp +decide [checkoutTree, matGo, matFiles, treeGet, blobGet, fsDirs, fsFiles, wTSC1,
      wTreeC1, wBSC1, wFSC1, wHashC1, FS.dirsOf, FS.filesOf, notReserved, DATA_FOLDER,
      TEMP_FOLDER, sortByName, insertByName, List.mapM.loop]
  exact ⟨hrun, checkout_persist_roundtrip wHashC1 wTSC1 wBSC1 1 0 1 wFSC1
    (FS.dir [] [("b.txt", [7])]) hcap hrun⟩


end Vx
